import Mathlib

/-!
Verification of the geometry / numbering helpers of the BIM3DNA pyRevit
extension (`BIM3DNA.tab/Dev.panel/DevButton_1.pushbutton/script.py`),
shallowly embedded over exact rational arithmetic.  Points are triples of
rationals; every embedded function mirrors the Python source line by line
(tolerances, scan order, early exits, truthiness tests), so that each
definition can be diffed against the script.
-/

set_option maxHeartbeats 1600000

namespace BIM3DNA

/-- A 3D point, as produced by the host API's `XYZ`. -/
structure Pt3 where
  x : ℚ
  y : ℚ
  z : ℚ
deriving DecidableEq

/-- A boundary segment: the ordered endpoint pair of one detail line. -/
abbrev Seg := Pt3 × Pt3

/-- `points_are_close(pt1, pt2, tol=1e-6)` from the script: componentwise
absolute difference strictly below the tolerance. -/
def points_are_close (pt1 pt2 : Pt3) (tol : ℚ := 1/1000000) : Bool :=
  |pt1.x - pt2.x| < tol && |pt1.y - pt2.y| < tol && |pt1.z - pt2.z| < tol

/-- The inner `for idx, seg in enumerate(segments)` scan of
`order_segments_to_polygon`: find the first segment one of whose endpoints
is close to the chain's tail point, returning the opposite endpoint and the
list with that segment removed (`segments.pop(idx)`), or `none` when no
segment matches (`changed` stays false). -/
def findAndRemove (last_pt : Pt3) : List Seg → Option (Pt3 × List Seg)
  | [] => none
  | (ptA, ptB) :: rest =>
    if points_are_close last_pt ptA then some (ptB, rest)
    else if points_are_close last_pt ptB then some (ptA, rest)
    else
      match findAndRemove last_pt rest with
      | some (p, rest') => some (p, (ptA, ptB) :: rest')
      | none => none

/-- The `while segments and changed` loop of `order_segments_to_polygon`:
repeatedly extend the chain by the first matching segment until no segment
matches or none remain.  Each pass of the Python loop removes exactly one
segment, so running with `segments.length` as fuel reproduces the loop
exactly.  Returns the final chain and the unconsumed segments. -/
def order_chain : ℕ → List Pt3 → List Seg → List Pt3 × List Seg
  | 0, polygon, segments => (polygon, segments)
  | fuel + 1, polygon, segments =>
    match findAndRemove (polygon.getLastD ⟨0, 0, 0⟩) segments with
    | none => (polygon, segments)
    | some (p, segments') => order_chain fuel (polygon ++ [p]) segments'

/-- `order_segments_to_polygon(segments)` from the script: seed the chain
with the first segment's endpoints, chain greedily, then succeed exactly
when the chain is nonempty and its first and last points are close
(popping the repeated closing point).  Unconsumed segments are ignored at
this final test. -/
def order_segments_to_polygon (segments : List Seg) : Option (List Pt3) :=
  match segments with
  | [] => none
  | seg0 :: rest =>
    let (polygon, _) := order_chain rest.length [seg0.1, seg0.2] rest
    if !polygon.isEmpty &&
        points_are_close (polygon.headD ⟨0, 0, 0⟩) (polygon.getLastD ⟨0, 0, 0⟩)
    then some polygon.dropLast
    else none

/-- The chain built by `order_segments_to_polygon` on input `seg0 :: rest`,
before the closing test (named for use in theorem statements). -/
def chainedPolygon (seg0 : Seg) (rest : List Seg) : List Pt3 :=
  (order_chain rest.length [seg0.1, seg0.2] rest).1

/-- The unconsumed segments left over by the chaining loop on input
`seg0 :: rest`. -/
def leftoverSegments (seg0 : Seg) (rest : List Seg) : List Seg :=
  (order_chain rest.length [seg0.1, seg0.2] rest).2

/-- Planar projection used throughout the script: only `X` and `Y` of a
point participate in containment, clustering and sorting. -/
def pxy (p : Pt3) : ℚ × ℚ := (p.x, p.y)

/-- The Python idiom `((yj - yi) or 1e-12)`: a zero denominator is replaced
by `1e-12`. -/
def denomGuard (d : ℚ) : ℚ :=
  if d = 0 then 1/1000000000000 else d

/-- The crossing test of one loop iteration of `is_point_inside_polygon`:
the pair `pr` is `(polygon[j], polygon[i])` and the test is
`((yi > y) != (yj > y)) and (x < (xj - xi) * (y - yi) / ((yj - yi) or 1e-12) + xi)`. -/
def edgeCross (x y : ℚ) (pr : Pt3 × Pt3) : Bool :=
  (decide (pr.2.y > y) != decide (pr.1.y > y)) &&
    decide (x < (pr.1.x - pr.2.x) * (y - pr.2.y) / denomGuard (pr.1.y - pr.2.y) + pr.2.x)

/-- The crossing abscissa used by `is_point_inside_polygon`: the `x` value
`(xj - xi) * (y - yi) / ((yj - yi) or 1e-12) + xi` at which the edge
`pr = (polygon[j], polygon[i])` meets the horizontal line at height `y`. -/
def crossX (y : ℚ) (pr : Pt3 × Pt3) : ℚ :=
  (pr.1.x - pr.2.x) * (y - pr.2.y) / denomGuard (pr.1.y - pr.2.y) + pr.2.x

/-- The sequence of index pairs `(j, i)` walked by `is_point_inside_polygon`:
`j` starts at `n - 1` and then trails `i`, so the pairs are
`(v[n-1], v[0]), (v[0], v[1]), ..., (v[n-2], v[n-1])`. -/
def edgePairs (polygon : List Pt3) : List (Pt3 × Pt3) :=
  (polygon.rotate (polygon.length - 1)).zip polygon

/-- `is_point_inside_polygon(point, polygon)` from the script: even-odd
ray casting; `inside` starts `False` and flips on every crossing edge. -/
def is_point_inside_polygon (point : Pt3) (polygon : List Pt3) : Bool :=
  (edgePairs polygon).foldl
    (fun inside pr => if edgeCross point.x point.y pr then !inside else inside)
    false

/-- Variant of `is_point_inside_polygon` in which the `or 1e-12`
denominator guard is removed (raw denominator `yj - yi`); used to state
that the guard branch is unreachable. -/
def is_point_inside_polygon_raw (point : Pt3) (polygon : List Pt3) : Bool :=
  (edgePairs polygon).foldl
    (fun inside pr =>
      if (decide (pr.2.y > point.y) != decide (pr.1.y > point.y)) &&
          decide (point.x <
            (pr.1.x - pr.2.x) * (point.y - pr.2.y) / (pr.1.y - pr.2.y) + pr.2.x)
      then !inside else inside)
    false

/-- The cyclic successor pairs `(v[k], v[k+1 mod n])` of a vertex list;
the multiset of directed boundary edges.  `edgePairs` is a rotation of
this list. -/
def cyclicPairs (l : List Pt3) : List (Pt3 × Pt3) :=
  l.zip (l.rotate 1)

/-- The side test `v.y > y` of the ray-casting loop, as a predicate on
vertices. -/
def sGt (y : ℚ) (v : Pt3) : Bool :=
  decide (v.y > y)

/-- A directed boundary edge crossing the horizontal line at height `y`
upward: the tail is not above the line, the head is. -/
def riseP (y : ℚ) (pr : Pt3 × Pt3) : Bool :=
  !sGt y pr.1 && sGt y pr.2

/-- A directed boundary edge crossing the horizontal line at height `y`
downward. -/
def fallP (y : ℚ) (pr : Pt3 × Pt3) : Bool :=
  sGt y pr.1 && !sGt y pr.2

/-- Equality of vertex lists up to rotation of the starting index and
reflection (reversal) of the orientation. -/
def samePolyUpToRotRefl (p q : List Pt3) : Bool :=
  (List.range p.length).any (fun k => p.rotate k == q) ||
    (List.range p.length).any (fun k => p.reverse.rotate k == q)

/-- Tolerance of the fitting clustering pass of `autoFillPipeTagCodes`
(`tol = 0.01`, "about 3 mm in model units"). -/
def clusterTol : ℚ := 1/100

/-- One candidate placement of the clustering loop: scan the existing
clusters in order and append the fitting to the first cluster whose FIRST
member's center is within `clusterTol` of the candidate in both `X` and
`Y`; if none matches, open a new cluster at the end. -/
def placeInClusters (item : ℕ × Pt3) :
    List (List (ℕ × Pt3)) → List (List (ℕ × Pt3))
  | [] => [[item]]
  | cl :: rest =>
    if |item.2.x - (cl.headD (0, ⟨0, 0, 0⟩)).2.x| < clusterTol &&
        |item.2.y - (cl.headD (0, ⟨0, 0, 0⟩)).2.y| < clusterTol
    then (cl ++ [item]) :: rest
    else cl :: placeInClusters item rest

/-- The fitting clustering loop of `autoFillPipeTagCodes` (step 3): fold
every `(row index, center)` pair through `placeInClusters`, starting from
no clusters. -/
def buildClusters (fit_centers : List (ℕ × Pt3)) : List (List (ℕ × Pt3)) :=
  fit_centers.foldl (fun clusters item => placeInClusters item clusters) []

/-- Well-formedness of one produced cluster: nonempty, and every member's
center is within the clustering tolerance of the FIRST member's center in
both `X` and `Y`. -/
def clusterOK (cl : List (ℕ × Pt3)) : Prop :=
  cl ≠ [] ∧ ∀ m ∈ cl,
    |m.2.x - (cl.headD (0, ⟨0, 0, 0⟩)).2.x| < clusterTol ∧
    |m.2.y - (cl.headD (0, ⟨0, 0, 0⟩)).2.y| < clusterTol

/-- Lexicographic `(X, Y)` comparison used as the sort key
`key=lambda x: (x[1].X, x[1].Y)` for pipe centers (and, on first members,
for clusters). -/
def centerLe (e1 e2 : ℕ × Pt3) : Prop :=
  e1.2.x < e2.2.x ∨ (e1.2.x = e2.2.x ∧ e1.2.y ≤ e2.2.y)

instance : DecidableRel centerLe := fun e1 e2 => by
  unfold centerLe; infer_instance

instance : IsTotal (ℕ × Pt3) centerLe where
  total e1 e2 := by
    unfold centerLe
    rcases lt_trichotomy e1.2.x e2.2.x with h | h | h
    · exact Or.inl (Or.inl h)
    · rcases le_total e1.2.y e2.2.y with h' | h'
      · exact Or.inl (Or.inr ⟨h, h'⟩)
      · exact Or.inr (Or.inr ⟨h.symm, h'⟩)
    · exact Or.inr (Or.inl h)

instance : IsTrans (ℕ × Pt3) centerLe where
  trans e1 e2 e3 h12 h23 := by
    unfold centerLe at *
    rcases h12 with h | ⟨hx, hy⟩ <;> rcases h23 with h' | ⟨hx', hy'⟩
    · exact Or.inl (h.trans h')
    · exact Or.inl (hx' ▸ h)
    · exact Or.inl (hx ▸ h')
    · exact Or.inr ⟨hx.trans hx', hy.trans hy'⟩

/-- `pipe_centers.sort(key=lambda x: (x[1].X, x[1].Y))` of step 5 of
`autoFillPipeTagCodes`.  (Python's sort is stable; for the pairwise
distinct centers of the claims any correct sort produces the same list, so
insertion sort is an adequate embedding.) -/
def sortPipeCenters (pipe_centers : List (ℕ × Pt3)) : List (ℕ × Pt3) :=
  pipe_centers.insertionSort centerLe

/-- Steps 5 of `autoFillPipeTagCodes`: sort the pipe `(row, center)` pairs
by `(X, Y)` and assign `base + "." + str(i)` with `i` counting from 1, in
sorted order.  Returns `(row index, assigned code)` pairs. -/
def numberPipes (base : String) (pipe_centers : List (ℕ × Pt3)) :
    List (ℕ × String) :=
  ((sortPipeCenters pipe_centers).zip
      (List.range' 1 pipe_centers.length)).map
    (fun ei => (ei.1.1, base ++ "." ++ toString ei.2))

/-- Character class of the regex `[\d\.]`: a decimal digit or a dot. -/
def isNumDot (c : Char) : Bool :=
  c.isDigit || c == '.'

/-- `re.search(r"([\d\.]+)", raw)`: the FIRST maximal run of digit/dot
characters of the text, or `none` when there is none. -/
def findRun : List Char → Option (List Char)
  | [] => none
  | c :: rest =>
    if isNumDot c then some (c :: rest.takeWhile isNumDot)
    else findRun rest

theorem dropWhile_length_le (p : Char → Bool) (l : List Char) :
    (l.dropWhile p).length ≤ l.length := by
  induction l with
  | nil => simp
  | cons c rest ih =>
    simp only [List.dropWhile]
    split
    · exact ih.trans (Nat.le_succ _)
    · simp

/-- The LAST maximal run of digit/dot characters of the text.  Modelled
from the spec: "Parse the last numeric run as the seed"; the script itself
uses `re.search`, which yields the first run, so this definition exists
only to compare the spec's words against the code. -/
def findLastRun : List Char → Option (List Char)
  | [] => none
  | c :: rest =>
    if isNumDot c then
      match findLastRun (rest.dropWhile isNumDot) with
      | some r => some r
      | none => some (c :: rest.takeWhile isNumDot)
    else findLastRun rest
termination_by l => l.length
decreasing_by
  · simp only [List.length_cons]
    exact Nat.lt_succ_of_le (dropWhile_length_le isNumDot rest)
  · simp only [List.length_cons]
    exact Nat.lt_succ_of_le le_rfl

/-- Python's `str.split(".")`: split on every dot, keeping empty pieces
(`"".split(".") == [""]`). -/
def splitOnDot : List Char → List (List Char)
  | [] => [[]]
  | c :: rest =>
    let r := splitOnDot rest
    if c == '.' then [] :: r
    else (c :: r.headD []) :: r.tail

/-- Decimal value of a digit string. -/
def digitsToNat (l : List Char) : ℕ :=
  l.foldl (fun n c => 10 * n + (c.toNat - '0'.toNat)) 0

/-- Python's `int(s)` restricted to the strings reachable here (pieces of
a digit/dot run with the dots split away, hence digit-only or empty):
fails on the empty string, otherwise the decimal value. -/
def pyIntOfDigits (l : List Char) : Option ℕ :=
  if l ≠ [] ∧ l.all Char.isDigit then some (digitsToNat l) else none

/-- Step 1 of `autoFillPipeTagCodes`, given the first digit/dot run
`base`: `parts = base.split(".")`; with three or more parts the result is
`(parts[0] + "." + parts[1], int(parts[2]))` where an unparseable
`parts[2]` gives 0; with fewer parts it is `(base, 0)`. -/
def splitBaseCode (base : List Char) : List Char × ℕ :=
  let parts := splitOnDot base
  if 3 ≤ parts.length then
    ((parts.getD 0 []) ++ ['.'] ++ (parts.getD 1 []),
      (pyIntOfDigits (parts.getD 2 [])).getD 0)
  else (base, 0)

/-- The base-code parsing of `autoFillPipeTagCodes` (step 1): extract the
first digit/dot run of the entered text (`none` aborts with an error
dialog), then split it into the two-level prefix and the trailing seed
integer. -/
def parseBaseCode (raw : List Char) : Option (List Char × ℕ) :=
  match findRun raw with
  | none => none
  | some base => some (splitBaseCode base)

/-- The parser as the spec describes it, taking the LAST numeric run.
Modelled from the spec for comparison with `parseBaseCode`. -/
def parseBaseCodeSpec (raw : List Char) : Option (List Char × ℕ) :=
  match findLastRun raw with
  | none => none
  | some base => some (splitBaseCode base)

/-- A Revit parameter as seen by `convert_param_to_string`:
`AsValueString()` (`none` models both `None` and a thrown exception) and
`AsDouble()` (`none` models a thrown exception). -/
structure ParamObj where
  valueString : Option String
  double : Option ℚ

/-- Python's `str.strip()`: drop whitespace from both ends. -/
def pyStrip (s : String) : String :=
  ⟨((s.data.dropWhile Char.isWhitespace).reverse.dropWhile
      Char.isWhitespace).reverse⟩

/-- Python 2 / IronPython `round`: halves round away from zero. -/
def pyRound (q : ℚ) : ℤ :=
  if 0 ≤ q then ⌊q + 1/2⌋ else -⌊-q + 1/2⌋

/-- `convert_param_to_string(param_obj)` from the script: `""` for a
missing parameter; the display string when present and nonblank after
stripping; otherwise the raw double converted by
`str(int(round(val_double * 304.8))) + " mm"`; `""` when even the double
is unavailable. -/
def convert_param_to_string (param_obj : Option ParamObj) : String :=
  match param_obj with
  | none => ""
  | some p =>
    if pyStrip (p.valueString.getD "") ≠ "" then p.valueString.getD ""
    else
      match p.double with
      | some val_double => toString (pyRound (val_double * (3048/10))) ++ " mm"
      | none => ""

/-- 2D cross product `(a - o) × (b - o)`: positive when `o → a → b` turns
left (counterclockwise). -/
def cross2 (o a b : ℚ × ℚ) : ℚ :=
  (a.1 - o.1) * (b.2 - o.2) - (a.2 - o.2) * (b.1 - o.1)

/-- The planar vertex centroid of a polygon: the average of the vertices'
`(X, Y)` projections, as a point at elevation 0 (the containment test
ignores elevation). -/
def centroidPt (l : List Pt3) : Pt3 :=
  ⟨((l.map pxy).map Prod.fst).sum / l.length,
   ((l.map pxy).map Prod.snd).sum / l.length, 0⟩

/-- Every vertex lies weakly on the left of every directed boundary edge:
the counterclockwise convex-position condition. -/
def AllLeft (l : List Pt3) : Prop :=
  ∀ pr ∈ cyclicPairs l, ∀ v ∈ l, 0 ≤ cross2 (pxy pr.1) (pxy pr.2) (pxy v)

/-- Every vertex lies weakly on the right of every directed boundary edge:
the clockwise convex-position condition. -/
def AllRight (l : List Pt3) : Prop :=
  ∀ pr ∈ cyclicPairs l, ∀ v ∈ l, cross2 (pxy pr.1) (pxy pr.2) (pxy v) ≤ 0

/-- A (strictly) convex polygon: at least three vertices, pairwise
distinct in the plane, no three of them collinear, listed in convex
position (counterclockwise or clockwise). -/
def ConvexPolygon (l : List Pt3) : Prop :=
  3 ≤ l.length ∧ (l.map pxy).Nodup ∧
    (∀ u ∈ l, ∀ v ∈ l, ∀ w ∈ l,
      pxy u ≠ pxy v → pxy v ≠ pxy w → pxy u ≠ pxy w →
        cross2 (pxy u) (pxy v) (pxy w) ≠ 0) ∧
    (AllLeft l ∨ AllRight l)

/-- The set of planar vertex positions of a polygon. -/
def vertexSet (l : List Pt3) : Set (ℚ × ℚ) :=
  {p | ∃ v ∈ l, pxy v = p}

/-- The four boundary segments of the spec's example unit square. -/
def squareSegs : List Seg :=
  [(⟨0,0,0⟩, ⟨1,0,0⟩), (⟨1,0,0⟩, ⟨1,1,0⟩), (⟨1,1,0⟩, ⟨0,1,0⟩),
   (⟨0,1,0⟩, ⟨0,0,0⟩)]

/-- The spec's example polygon `[(0,0),(1,0),(1,1),(0,1)]`. -/
def squarePoly : List Pt3 :=
  [⟨0,0,0⟩, ⟨1,0,0⟩, ⟨1,1,0⟩, ⟨0,1,0⟩]

end BIM3DNA

namespace BIM3DNA

/-! ### Structure of the chaining loop -/

theorem order_chain_fst_append (fuel : ℕ) :
    ∀ (polygon : List Pt3) (segments : List Seg),
      ∃ suffix, (order_chain fuel polygon segments).1 = polygon ++ suffix := by
  induction fuel with
  | zero => intro polygon segments; exact ⟨[], by simp [order_chain]⟩
  | succ fuel ih =>
    intro polygon segments
    simp only [order_chain]
    cases hfind : findAndRemove (polygon.getLastD ⟨0, 0, 0⟩) segments with
    | none => exact ⟨[], by simp⟩
    | some pr =>
      obtain ⟨p, segments'⟩ := pr
      obtain ⟨suffix, hsuffix⟩ := ih (polygon ++ [p]) segments'
      exact ⟨[p] ++ suffix, by simp [hsuffix]⟩

theorem chainedPolygon_head (seg0 : Seg) (rest : List Seg) :
    (chainedPolygon seg0 rest).headD ⟨0, 0, 0⟩ = seg0.1 ∧
      chainedPolygon seg0 rest ≠ [] := by
  obtain ⟨suffix, hsuffix⟩ := order_chain_fst_append rest.length [seg0.1, seg0.2] rest
  unfold chainedPolygon
  rw [hsuffix]
  simp

end BIM3DNA

namespace BIM3DNA

theorem alt_denom_ne {y yi yj : ℚ}
    (h : (decide (yi > y) != decide (yj > y)) = true) : yj - yi ≠ 0 := by
  by_cases h1 : yi > y <;> by_cases h2 : yj > y <;> simp [h1, h2] at h ⊢
  · exact sub_ne_zero.2 (ne_of_gt (lt_of_le_of_lt (not_lt.mp h2) h1)).symm
  · exact sub_ne_zero.2 (ne_of_gt (lt_of_le_of_lt (not_lt.mp h1) h2))

/-- C1 counterexample: two segments close into a loop while a third stays
unconsumed with no match to the chain's tail; the claim demands failure,
but the function returns a polygon (the leftover segment is simply
dropped). -/
theorem closedChainWithLeftoverSucceeds :
    order_segments_to_polygon
        [(⟨0,0,0⟩, ⟨1,0,0⟩), (⟨1,0,0⟩, ⟨0,0,0⟩), (⟨5,5,5⟩, ⟨6,6,6⟩)] =
      some [⟨0,0,0⟩, ⟨1,0,0⟩] ∧
    leftoverSegments (⟨0,0,0⟩, ⟨1,0,0⟩)
        [(⟨1,0,0⟩, ⟨0,0,0⟩), (⟨5,5,5⟩, ⟨6,6,6⟩)] = [(⟨5,5,5⟩, ⟨6,6,6⟩)] ∧
    order_segments_to_polygon
        [(⟨0,0,0⟩, ⟨1,0,0⟩), (⟨1,0,0⟩, ⟨0,0,0⟩), (⟨5,5,5⟩, ⟨6,6,6⟩)] ≠
      none := by
  have h1 : order_segments_to_polygon
      [(⟨0,0,0⟩, ⟨1,0,0⟩), (⟨1,0,0⟩, ⟨0,0,0⟩), (⟨5,5,5⟩, ⟨6,6,6⟩)] =
      some [⟨0,0,0⟩, ⟨1,0,0⟩] := by
    norm_num [order_segments_to_polygon, order_chain, findAndRemove,
      points_are_close]
  refine ⟨h1, ?_, by simp [h1]⟩
  norm_num [leftoverSegments, order_chain, findAndRemove, points_are_close]

/-- C1 (amended): `order_segments_to_polygon` returns `none` exactly when
the input is empty or the chained polygon's last point does not reconnect
to its first point (the first segment's first endpoint) within the
tolerance.  Unconsumed segments do NOT cause failure. -/
theorem order_segments_to_polygon_none_iff (segments : List Seg) :
    order_segments_to_polygon segments = none ↔
      (segments = [] ∨
        ∃ seg0 rest, segments = seg0 :: rest ∧
          points_are_close seg0.1
            ((chainedPolygon seg0 rest).getLastD ⟨0, 0, 0⟩) = false) := by
  cases segments with
  | nil => simp [order_segments_to_polygon]
  | cons seg0 rest =>
    obtain ⟨hhead, hne⟩ := chainedPolygon_head seg0 rest
    have hiff : order_segments_to_polygon (seg0 :: rest) = none ↔
        points_are_close seg0.1
          ((chainedPolygon seg0 rest).getLastD ⟨0, 0, 0⟩) = false := by
      simp only [order_segments_to_polygon]
      rcases h : order_chain rest.length [seg0.1, seg0.2] rest with ⟨polygon, segs⟩
      have hp : chainedPolygon seg0 rest = polygon := by
        unfold chainedPolygon; rw [h]
      rw [hp] at hhead hne ⊢
      rw [← hhead]
      cases hclose : points_are_close (polygon.headD ⟨0, 0, 0⟩)
          (polygon.getLastD ⟨0, 0, 0⟩) with
      | false => simp [hclose]
      | true => simp [hclose, hne]
    rw [hiff]
    constructor
    · intro hc; exact Or.inr ⟨seg0, rest, rfl, hc⟩
    · rintro (hnil | ⟨seg0', rest', heq, hc⟩)
      · exact absurd hnil (List.cons_ne_nil _ _)
      · obtain ⟨rfl, rfl⟩ : seg0 = seg0' ∧ rest = rest' := by
          injection heq with h1 h2; exact ⟨h1, h2⟩
        exact hc

/-- C5 counterexample: a single degenerate segment whose endpoints
coincide is chained into the one-point "polygon" `[p]` and returned as a
success, although the claim demands failure on degenerate input. -/
theorem degenerateSegmentYieldsPolygon :
    order_segments_to_polygon [(⟨0,0,0⟩, ⟨0,0,0⟩)] = some [⟨0,0,0⟩] ∧
    order_segments_to_polygon [(⟨0,0,0⟩, ⟨0,0,0⟩)] ≠ none := by
  have h1 : order_segments_to_polygon [(⟨0,0,0⟩, ⟨0,0,0⟩)] =
      some [⟨0,0,0⟩] := by
    norm_num [order_segments_to_polygon, order_chain, findAndRemove,
      points_are_close]
  exact ⟨h1, by simp [h1]⟩

/-- C5 (amended): a non-closing single segment fails, but a degenerate
single segment whose endpoints coincide yields the one-point polygon
`[p]`: the function performs no minimum-vertex or degeneracy check, only
the closing test. -/
theorem degenerate_and_open_inputs (p q : Pt3)
    (h : points_are_close p q = false) :
    order_segments_to_polygon [(p, p)] = some [p] ∧
    order_segments_to_polygon [(p, q)] = none := by
  constructor
  · norm_num [order_segments_to_polygon, order_chain, points_are_close]
  · have h' := h
    simp only [one_div] at h'
    simp [order_segments_to_polygon, order_chain, h, h']

theorem degenerate_and_open_inputs_witness :
    points_are_close ⟨0,0,0⟩ ⟨1,0,0⟩ = false ∧
    (order_segments_to_polygon [((⟨0,0,0⟩ : Pt3), (⟨0,0,0⟩ : Pt3))] =
        some [⟨0,0,0⟩] ∧
      order_segments_to_polygon [((⟨0,0,0⟩ : Pt3), (⟨1,0,0⟩ : Pt3))] = none) := by
  have h : points_are_close (⟨0,0,0⟩ : Pt3) ⟨1,0,0⟩ = false := by
    norm_num [points_are_close]
  exact ⟨h, degenerate_and_open_inputs ⟨0,0,0⟩ ⟨1,0,0⟩ h⟩

/-- C9: for a parameter with no display string and raw double `v`, the
result is `str(int(round(v * 304.8))) + " mm"`; in particular an internal
length of 1.0 converts to `"305 mm"`. -/
theorem convert_param_to_string_mm :
    (∀ v : ℚ, convert_param_to_string (some ⟨none, some v⟩) =
        toString (pyRound (v * (3048/10))) ++ " mm") ∧
      convert_param_to_string (some ⟨none, some (1 : ℚ)⟩) = "305 mm" := by
  constructor
  · intro v; rfl
  · show toString (pyRound ((1 : ℚ) * (3048/10))) ++ " mm" = "305 mm"
    have h : pyRound ((1 : ℚ) * (3048/10)) = 305 := by
      unfold pyRound
      rw [if_pos (by norm_num)]
      rw [show ((1 : ℚ) * (3048/10) + 1/2) = 3053/10 by norm_num]
      norm_num [Int.floor_eq_iff]
    rw [h]
    rfl

/-- C10: the containment test is total: the empty polygon yields `false`;
whenever the crossing condition `(yi > y) != (yj > y)` holds the raw
denominator `yj - yi` is nonzero, so the `or 1e-12` fallback is
unreachable and the function agrees everywhere with the guard-free
variant. -/
theorem inside_polygon_total_guard_unreachable :
    (∀ point : Pt3, is_point_inside_polygon point [] = false) ∧
    (∀ y yi yj : ℚ,
      (decide (yi > y) != decide (yj > y)) = true → yj - yi ≠ 0) ∧
    (∀ (point : Pt3) (polygon : List Pt3),
      is_point_inside_polygon point polygon =
        is_point_inside_polygon_raw point polygon) := by
  refine ⟨fun point => rfl, fun y yi yj h => alt_denom_ne h, ?_⟩
  intro point polygon
  unfold is_point_inside_polygon is_point_inside_polygon_raw
  apply List.foldl_ext
  intro b pr _
  by_cases halt :
      (decide (pr.2.y > point.y) != decide (pr.1.y > point.y)) = true
  · have hne : pr.1.y - pr.2.y ≠ 0 := alt_denom_ne halt
    simp only [edgeCross, denomGuard, if_neg hne, halt, Bool.true_and]
  · simp only [edgeCross, Bool.not_eq_true] at halt ⊢
    simp [halt]

theorem inside_polygon_total_guard_unreachable_witness :
    is_point_inside_polygon ⟨5, 5, 5⟩ [] = false ∧
    ((decide ((1 : ℚ) > 0) != decide ((-1 : ℚ) > 0)) = true ∧
      (-1 : ℚ) - 1 ≠ 0) ∧
    is_point_inside_polygon ⟨2, 2, 0⟩ squarePoly =
      is_point_inside_polygon_raw ⟨2, 2, 0⟩ squarePoly := by
  have h : (decide ((1 : ℚ) > 0) != decide ((-1 : ℚ) > 0)) = true := by
    norm_num
  exact ⟨inside_polygon_total_guard_unreachable.1 _,
    ⟨h, inside_polygon_total_guard_unreachable.2.1 0 1 (-1) h⟩,
    inside_polygon_total_guard_unreachable.2.2 _ _⟩

end BIM3DNA

namespace BIM3DNA

/-! ### Clustering (C3) -/

/-- C3 counterexample: centers A = (0,0), B = (3/200, 0) = (0.015, 0) and
C = (1/125, 0) = (0.008, 0).  B and C are within the 0.01 tolerance of
each other in X and Y (and in euclidean distance, 0.007 < 0.01), yet they
land in different clusters: B opens its own cluster (too far from A) and C
then joins A's cluster, because candidates are compared only against each
cluster's FIRST member. -/
theorem clusteringSplitsClosePair :
    (|(3/200 : ℚ) - 1/125| < clusterTol ∧ |(0 : ℚ) - 0| < clusterTol ∧
      ((3/200 : ℚ) - 1/125)^2 + ((0 : ℚ) - 0)^2 < clusterTol^2) ∧
    buildClusters [(0, ⟨0, 0, 0⟩), (1, ⟨3/200, 0, 0⟩), (2, ⟨1/125, 0, 0⟩)] =
      [[(0, ⟨0, 0, 0⟩), (2, ⟨1/125, 0, 0⟩)], [(1, ⟨3/200, 0, 0⟩)]] := by
  constructor
  · norm_num [clusterTol, abs_lt]
  · norm_num [buildClusters, placeInClusters, clusterTol, abs_lt]

theorem placeInClusters_preserves (item : ℕ × Pt3) :
    ∀ (clusters : List (List (ℕ × Pt3))),
      (∀ cl ∈ clusters, clusterOK cl) →
      ∀ cl ∈ placeInClusters item clusters, clusterOK cl := by
  intro clusters
  induction clusters with
  | nil =>
    intro _ cl hcl
    simp only [placeInClusters, List.mem_singleton] at hcl
    subst hcl
    refine ⟨by simp, ?_⟩
    intro m hm
    simp only [List.mem_singleton] at hm
    subst hm
    norm_num [clusterTol]
  | cons c rest ih =>
    intro hOK cl hcl
    simp only [placeInClusters] at hcl
    split at hcl
    case isTrue hcond =>
      rcases List.mem_cons.mp hcl with rfl | hmem
      · have hcOK := hOK c (List.mem_cons_self c rest)
        obtain ⟨hcne, hcinv⟩ := hcOK
        have hhead : (c ++ [item]).headD (0, ⟨0, 0, 0⟩) =
            c.headD (0, ⟨0, 0, 0⟩) := by
          cases c with
          | nil => exact absurd rfl hcne
          | cons a t => rfl
        refine ⟨by simp, ?_⟩
        intro m hm
        rw [hhead]
        rcases List.mem_append.mp hm with hmc | hmi
        · exact hcinv m hmc
        · simp only [List.mem_singleton] at hmi
          subst hmi
          simp only [Bool.and_eq_true, decide_eq_true_eq] at hcond
          exact hcond
      · exact hOK cl (List.mem_cons_of_mem _ hmem)
    case isFalse hcond =>
      rcases List.mem_cons.mp hcl with rfl | hmem
      · exact hOK cl (List.mem_cons_self cl rest)
      · exact ih (fun d hd => hOK d (List.mem_cons_of_mem _ hd)) cl hmem

theorem buildClusters_invariant_aux (rows : List (ℕ × Pt3)) :
    ∀ (clusters : List (List (ℕ × Pt3))),
      (∀ cl ∈ clusters, clusterOK cl) →
      ∀ cl ∈ rows.foldl (fun cs it => placeInClusters it cs) clusters,
        clusterOK cl := by
  induction rows with
  | nil => intro clusters h; simpa using h
  | cons r rs ih =>
    intro clusters h
    simp only [List.foldl_cons]
    exact ih _ (placeInClusters_preserves r _ h)

/-- C3 (amended): clustering compares candidates only against each
cluster's FIRST member, per-coordinate in X and Y.  What holds is: (a)
every member of every produced cluster is within the tolerance of that
cluster's first member in both X and Y, and (b) for exactly two centers
the claim is exact: they share a cluster iff they are within the
tolerance per-coordinate.  For three or more centers, two centers within
tolerance of each other can land in different clusters (see the
counterexample). -/
theorem clustering_first_member_tolerance :
    (∀ rows : List (ℕ × Pt3), ∀ cl ∈ buildClusters rows, clusterOK cl) ∧
    (∀ c1 c2 : ℕ × Pt3,
      buildClusters [c1, c2] =
        if |c2.2.x - c1.2.x| < clusterTol ∧ |c2.2.y - c1.2.y| < clusterTol
        then [[c1, c2]] else [[c1], [c2]]) := by
  constructor
  · intro rows
    exact buildClusters_invariant_aux rows [] (by simp)
  · intro c1 c2
    by_cases h : |c2.2.x - c1.2.x| < clusterTol ∧ |c2.2.y - c1.2.y| < clusterTol
    · rw [if_pos h]
      simp [buildClusters, placeInClusters, h.1, h.2]
    · rw [if_neg h]
      rcases not_and_or.mp h with h' | h' <;>
        simp [buildClusters, placeInClusters, h']

theorem clustering_first_member_tolerance_witness :
    ([(0, (⟨0, 0, 0⟩ : Pt3)), (2, ⟨1/125, 0, 0⟩)] ∈
        buildClusters [(0, ⟨0, 0, 0⟩), (1, ⟨3/200, 0, 0⟩), (2, ⟨1/125, 0, 0⟩)] ∧
      clusterOK [(0, (⟨0, 0, 0⟩ : Pt3)), (2, ⟨1/125, 0, 0⟩)]) ∧
    buildClusters [(0, (⟨0, 0, 0⟩ : Pt3)), (1, ⟨1, 1, 0⟩)] =
      [[(0, ⟨0, 0, 0⟩)], [(1, ⟨1, 1, 0⟩)]] := by
  have hmem : [(0, (⟨0, 0, 0⟩ : Pt3)), (2, ⟨1/125, 0, 0⟩)] ∈
      buildClusters [(0, ⟨0, 0, 0⟩), (1, ⟨3/200, 0, 0⟩), (2, ⟨1/125, 0, 0⟩)] := by
    norm_num [buildClusters, placeInClusters, clusterTol, abs_lt]
  refine ⟨⟨hmem, clustering_first_member_tolerance.1 _ _ hmem⟩, ?_⟩
  have h2 := clustering_first_member_tolerance.2 (0, (⟨0, 0, 0⟩ : Pt3)) (1, ⟨1, 1, 0⟩)
  rw [if_neg (by norm_num [clusterTol])] at h2
  exact h2

end BIM3DNA

namespace BIM3DNA

/-! ### Pipe numbering (C4) -/

/-- C4: for pipe rows with pairwise-distinct planar centers, the numbering
pass `pipe_centers.sort(...); for i, (idx, _) in enumerate(pipe_centers, 1)`
assigns the codes `base + "." + str(i)` for `i = 1..N`, one per row, in
ascending lexicographic `(X, Y)` order: the produced codes are exactly
`base.1 .. base.N` in output order, the output rows are the sorted rows,
the sorted rows are a permutation of the input rows, and the sorted rows
are strictly ascending in `(X, Y)`. -/
theorem numberPipes_assigns_ascending (base : String)
    (rows : List (ℕ × Pt3))
    (hdist : rows.Pairwise (fun e1 e2 => pxy e1.2 ≠ pxy e2.2)) :
    (numberPipes base rows).map Prod.snd =
      (List.range' 1 rows.length).map (fun i => base ++ "." ++ toString i) ∧
    List.Perm (sortPipeCenters rows) rows ∧
    (numberPipes base rows).map Prod.fst =
      (sortPipeCenters rows).map Prod.fst ∧
    (sortPipeCenters rows).Pairwise
      (fun e1 e2 => e1.2.x < e2.2.x ∨ (e1.2.x = e2.2.x ∧ e1.2.y < e2.2.y)) := by
  have hperm : List.Perm (sortPipeCenters rows) rows :=
    List.perm_insertionSort centerLe rows
  have hlen : (sortPipeCenters rows).length = rows.length := hperm.length_eq
  have hrlen : (List.range' 1 rows.length).length = rows.length := by simp
  refine ⟨?_, hperm, ?_, ?_⟩
  · unfold numberPipes
    rw [List.map_map]
    have hcomp : (Prod.snd ∘ fun ei : (ℕ × Pt3) × ℕ =>
        ((ei.1.1, base ++ "." ++ toString ei.2) : ℕ × String)) =
        ((fun i => base ++ "." ++ toString i) ∘ Prod.snd) := rfl
    rw [hcomp, ← List.map_map,
      List.map_snd_zip _ _ (by rw [hlen, hrlen])]
  · unfold numberPipes
    rw [List.map_map]
    have hcomp : (Prod.fst ∘ fun ei : (ℕ × Pt3) × ℕ =>
        ((ei.1.1, base ++ "." ++ toString ei.2) : ℕ × String)) =
        (Prod.fst ∘ (Prod.fst : (ℕ × Pt3) × ℕ → ℕ × Pt3)) := rfl
    rw [hcomp, ← List.map_map,
      List.map_fst_zip _ _ (by rw [hlen, hrlen])]
  · have hsorted : (sortPipeCenters rows).Pairwise centerLe :=
      List.sorted_insertionSort centerLe rows
    have hd2 : (sortPipeCenters rows).Pairwise
        (fun e1 e2 => pxy e1.2 ≠ pxy e2.2) :=
      (hperm.pairwise_iff (fun h => (h ∘ Eq.symm : _))).mpr hdist
    refine (hsorted.and hd2).imp ?_
    rintro a b ⟨hle, hne⟩
    rcases hle with hlt | ⟨hxeq, hyle⟩
    · exact Or.inl hlt
    · refine Or.inr ⟨hxeq, lt_of_le_of_ne hyle ?_⟩
      intro hyeq
      exact hne (by simp [pxy, hxeq, hyeq, Prod.ext_iff])

theorem numberPipes_assigns_ascending_witness :
    ([((1 : ℕ), (⟨1, 0, 0⟩ : Pt3)), (0, ⟨0, 0, 0⟩)].Pairwise
      (fun e1 e2 => pxy e1.2 ≠ pxy e2.2)) ∧
    ((numberPipes "4.1.1" [(1, ⟨1, 0, 0⟩), (0, ⟨0, 0, 0⟩)]).map Prod.snd =
      (List.range' 1 2).map (fun i => "4.1.1" ++ "." ++ toString i) ∧
    List.Perm (sortPipeCenters [(1, ⟨1, 0, 0⟩), (0, ⟨0, 0, 0⟩)])
      [(1, ⟨1, 0, 0⟩), (0, ⟨0, 0, 0⟩)] ∧
    (numberPipes "4.1.1" [(1, ⟨1, 0, 0⟩), (0, ⟨0, 0, 0⟩)]).map Prod.fst =
      (sortPipeCenters [(1, ⟨1, 0, 0⟩), (0, ⟨0, 0, 0⟩)]).map Prod.fst ∧
    (sortPipeCenters [(1, ⟨1, 0, 0⟩), (0, ⟨0, 0, 0⟩)]).Pairwise
      (fun e1 e2 => e1.2.x < e2.2.x ∨ (e1.2.x = e2.2.x ∧ e1.2.y < e2.2.y))) := by
  have hdist : ([((1 : ℕ), (⟨1, 0, 0⟩ : Pt3)), (0, ⟨0, 0, 0⟩)].Pairwise
      (fun e1 e2 => pxy e1.2 ≠ pxy e2.2)) := by
    simp [List.pairwise_cons, pxy, Prod.ext_iff]
  exact ⟨hdist, numberPipes_assigns_ascending "4.1.1" _ hdist⟩

end BIM3DNA

namespace BIM3DNA

/-! ### Base-code parsing (C8) -/

/-- C8 counterexample: on the text `a1.1.5b2.2.9`, which contains two
digit/dot runs, `re.search(r"([\d\.]+)", raw)` returns the FIRST run
`1.1.5` (giving prefix `1.1` and trailing integer 5), not the last run
`2.2.9` (which would give `2.2` and 9) as the claim states. -/
theorem parserTakesFirstRun :
    parseBaseCode ['a','1','.','1','.','5','b','2','.','2','.','9'] =
      some (['1','.','1'], 5) ∧
    parseBaseCodeSpec ['a','1','.','1','.','5','b','2','.','2','.','9'] =
      some (['2','.','2'], 9) ∧
    parseBaseCode ['a','1','.','1','.','5','b','2','.','2','.','9'] ≠
      parseBaseCodeSpec ['a','1','.','1','.','5','b','2','.','2','.','9'] := by
  have h1 : parseBaseCode ['a','1','.','1','.','5','b','2','.','2','.','9'] =
      some (['1','.','1'], 5) := by decide
  have h2 : parseBaseCodeSpec ['a','1','.','1','.','5','b','2','.','2','.','9'] =
      some (['2','.','2'], 9) := by
    have hrun : findLastRun ['a','1','.','1','.','5','b','2','.','2','.','9'] =
        some ['2','.','2','.','9'] := by
      simp [findLastRun, isNumDot, List.dropWhile, List.takeWhile]
    simp only [parseBaseCodeSpec, hrun]
    decide
  refine ⟨h1, h2, ?_⟩
  rw [h1, h2]
  decide

theorem findRun_skip (pre : List Char)
    (hpre : ∀ c ∈ pre, isNumDot c = false) :
    ∀ l : List Char, findRun (pre ++ l) = findRun l := by
  induction pre with
  | nil => intro l; rfl
  | cons c rest ih =>
    intro l
    have hc : isNumDot c = false := hpre c (List.mem_cons_self c rest)
    simp only [List.cons_append, findRun, hc, Bool.false_eq_true, if_false]
    exact ih (fun d hd => hpre d (List.mem_cons_of_mem _ hd)) l

/-- C8 (amended): the parser takes the FIRST maximal digit/dot run of the
text as the seed code (not the last), splits it on dots into
`parts[0] + "." + parts[1]` and the integer value of `parts[2]` when there
are at least three parts (0 when `parts[2]` is unparseable), and falls
back to the whole run with trailing integer 0 when there are fewer than
three dot-separated parts. -/
theorem parseBaseCode_takes_first_run (pre run post : List Char)
    (hpre : ∀ c ∈ pre, isNumDot c = false) (hne : run ≠ [])
    (hrun : ∀ c ∈ run, isNumDot c = true)
    (hpost : ∀ c ∈ post.head?, isNumDot c = false) :
    parseBaseCode (pre ++ run ++ post) = some (splitBaseCode run) ∧
    (∀ base : List Char, (splitOnDot base).length < 3 →
      splitBaseCode base = (base, 0)) := by
  constructor
  · have hfind : findRun (pre ++ run ++ post) = some run := by
      rw [List.append_assoc, findRun_skip pre hpre]
      cases run with
      | nil => exact absurd rfl hne
      | cons c rs =>
        have hc : isNumDot c = true := hrun c (List.mem_cons_self c rs)
        simp only [List.cons_append, findRun, hc, if_true, List.append_eq]
        have hrs : (rs ++ post).takeWhile isNumDot =
            rs ++ post.takeWhile isNumDot := by
          exact List.takeWhile_append_of_pos
            (fun d hd => hrun d (List.mem_cons_of_mem _ hd))
        rw [hrs]
        have hposttw : post.takeWhile isNumDot = [] := by
          cases post with
          | nil => rfl
          | cons d ds =>
            have hd : isNumDot d = false := hpost d (by simp)
            simp [List.takeWhile, hd]
        rw [hposttw, List.append_nil]
    simp only [parseBaseCode, hfind]
  · intro base hlt
    simp only [splitBaseCode]
    rw [if_neg (by omega)]

theorem parseBaseCode_takes_first_run_witness :
    ((∀ c ∈ ['a'], isNumDot c = false) ∧ (['1','.','2','.','7'] : List Char) ≠ [] ∧
      (∀ c ∈ ['1','.','2','.','7'], isNumDot c = true) ∧
      (∀ c ∈ (['b'] : List Char).head?, isNumDot c = false)) ∧
    parseBaseCode (['a'] ++ ['1','.','2','.','7'] ++ ['b']) =
      some (splitBaseCode ['1','.','2','.','7']) ∧
    splitBaseCode ['4','2'] = (['4','2'], 0) := by
  have hpre : ∀ c ∈ (['a'] : List Char), isNumDot c = false := by decide
  have hne : (['1','.','2','.','7'] : List Char) ≠ [] := by decide
  have hrun : ∀ c ∈ (['1','.','2','.','7'] : List Char), isNumDot c = true := by
    decide
  have hpost : ∀ c ∈ (['b'] : List Char).head?, isNumDot c = false := by decide
  have h := parseBaseCode_takes_first_run ['a'] ['1','.','2','.','7'] ['b']
    hpre hne hrun hpost
  exact ⟨⟨hpre, hne, hrun, hpost⟩, h.1, h.2 ['4','2'] (by decide)⟩

end BIM3DNA

namespace BIM3DNA

/-! ### Order (in)dependence of polygon assembly (C2) -/

/-- C2 counterexample: the same three segments in two orders: starting
from the two-segment loop succeeds (the stray segment is dropped),
starting from the stray segment fails (nothing chains onto its tail), so
permuting the input does NOT preserve the outcome. -/
theorem permutationChangesOutcome :
    List.Perm
      ([(⟨5,5,5⟩, ⟨6,6,6⟩), (⟨0,0,0⟩, ⟨1,0,0⟩), (⟨1,0,0⟩, ⟨0,0,0⟩)] :
        List Seg)
      [(⟨0,0,0⟩, ⟨1,0,0⟩), (⟨1,0,0⟩, ⟨0,0,0⟩), (⟨5,5,5⟩, ⟨6,6,6⟩)] ∧
    order_segments_to_polygon
      [(⟨0,0,0⟩, ⟨1,0,0⟩), (⟨1,0,0⟩, ⟨0,0,0⟩), (⟨5,5,5⟩, ⟨6,6,6⟩)] =
      some [⟨0,0,0⟩, ⟨1,0,0⟩] ∧
    order_segments_to_polygon
      [(⟨5,5,5⟩, ⟨6,6,6⟩), (⟨0,0,0⟩, ⟨1,0,0⟩), (⟨1,0,0⟩, ⟨0,0,0⟩)] =
      none := by
  refine ⟨?_, ?_, ?_⟩
  · exact @List.perm_append_comm Seg [(⟨5,5,5⟩, ⟨6,6,6⟩)]
      [(⟨0,0,0⟩, ⟨1,0,0⟩), (⟨1,0,0⟩, ⟨0,0,0⟩)]
  · norm_num [order_segments_to_polygon, order_chain, findAndRemove,
      points_are_close]
  · norm_num [order_segments_to_polygon, order_chain, findAndRemove,
      points_are_close]

/-- C2 (amended): polygon assembly is NOT order-independent in general: a
permutation can turn success into failure when unmatched segments remain
(see the counterexample).  For the spec's example square, however, every
permutation of its four boundary segments assembles to the same closed
polygon up to rotation and reflection of the starting point. -/
theorem square_permutation_invariance (l : List Seg)
    (h : List.Perm l squareSegs) :
    Option.any (fun p => samePolyUpToRotRefl p squarePoly)
      (order_segments_to_polygon l) = true := by
  have hmem : l ∈ squareSegs.permutations' := List.mem_permutations'.2 h
  simp only [squareSegs, List.permutations', List.permutations'Aux,
    List.flatMap_cons, List.map, List.flatMap_nil, List.append_nil,
    List.mem_cons, List.not_mem_nil, or_false, false_or, List.mem_append,
    List.cons_append, List.nil_append, List.mem_singleton] at hmem
  rcases hmem with rfl|rfl|rfl|rfl|rfl|rfl|rfl|rfl|rfl|rfl|rfl|rfl|rfl|rfl|
    rfl|rfl|rfl|rfl|rfl|rfl|rfl|rfl|rfl|rfl <;>
    norm_num [order_segments_to_polygon, order_chain, findAndRemove,
      points_are_close, samePolyUpToRotRefl, squarePoly, List.rotate,
      List.range_succ]

theorem square_permutation_invariance_witness :
    List.Perm squareSegs squareSegs ∧
    Option.any (fun p => samePolyUpToRotRefl p squarePoly)
      (order_segments_to_polygon squareSegs) = true :=
  ⟨List.Perm.refl _,
    square_permutation_invariance squareSegs (List.Perm.refl _)⟩

end BIM3DNA

namespace BIM3DNA

/-! ### Containment invariance (C6): parity machinery -/

theorem foldl_flip_eq (P : Pt3 × Pt3 → Bool) :
    ∀ (l : List (Pt3 × Pt3)) (b : Bool),
      l.foldl (fun ins pr => if P pr then !ins else ins) b =
        (b != (l.countP P % 2 == 1)) := by
  intro l
  induction l with
  | nil => intro b; simp
  | cons a l ih =>
    intro b
    simp only [List.foldl_cons, List.countP_cons, ih]
    by_cases hp : P a = true
    · simp only [hp, if_true]
      rcases Nat.mod_two_eq_zero_or_one (l.countP P) with h2 | h2 <;>
        · rw [Nat.add_mod, h2]
          cases b <;> decide
    · simp only [Bool.not_eq_true] at hp
      simp [hp]

theorem cyclicPairs_rotate_one (l : List Pt3) :
    cyclicPairs (l.rotate 1) = (cyclicPairs l).rotate 1 := by
  match l with
  | [] => rfl
  | [a] => simp [cyclicPairs, List.rotate_singleton]
  | a :: b :: t =>
    have h1 : (a :: b :: t).rotate 1 = b :: (t ++ [a]) := by
      rw [List.rotate_cons_succ, List.rotate_zero]; rfl
    have h2 : (b :: (t ++ [a])).rotate 1 = (t ++ [a]) ++ [b] := by
      rw [List.rotate_cons_succ, List.rotate_zero]
    have h3 : cyclicPairs (a :: b :: t) =
        (a, b) :: (b :: t).zip (t ++ [a]) := by
      unfold cyclicPairs
      rw [List.rotate_cons_succ, List.rotate_zero]
      rfl
    have h4 : ((a, b) :: (b :: t).zip (t ++ [a])).rotate 1 =
        (b :: t).zip (t ++ [a]) ++ [(a, b)] := by
      rw [List.rotate_cons_succ, List.rotate_zero]
    rw [h1, h3, h4]
    unfold cyclicPairs
    rw [h2]
    rw [show (b :: (t ++ [a])) = (b :: t) ++ [a] from rfl]
    rw [List.zip_append (by simp)]
    rfl

theorem cyclicPairs_rotate (l : List Pt3) (k : ℕ) :
    cyclicPairs (l.rotate k) = (cyclicPairs l).rotate k := by
  induction k with
  | zero => simp
  | succ k ih =>
    have hr : l.rotate (k + 1) = (l.rotate k).rotate 1 := by
      rw [List.rotate_rotate]
    rw [hr, cyclicPairs_rotate_one, ih, List.rotate_rotate]

theorem edgePairs_eq_rotate (l : List Pt3) :
    edgePairs l = (cyclicPairs l).rotate (l.length - 1) := by
  cases l with
  | nil => rfl
  | cons a t =>
    rw [← cyclicPairs_rotate]
    unfold edgePairs cyclicPairs
    rw [List.rotate_rotate]
    have hlen : (a :: t).length - 1 + 1 = (a :: t).length := by simp
    rw [hlen, List.rotate_length]

theorem countP_edgePairs_eq (P : Pt3 × Pt3 → Bool) (l : List Pt3) :
    (edgePairs l).countP P = (cyclicPairs l).countP P := by
  rw [edgePairs_eq_rotate]
  exact (List.rotate_perm _ _).countP_eq P

theorem inside_eq_parity (point : Pt3) (l : List Pt3) :
    is_point_inside_polygon point l =
      ((cyclicPairs l).countP (edgeCross point.x point.y) % 2 == 1) := by
  unfold is_point_inside_polygon
  rw [foldl_flip_eq, countP_edgePairs_eq]
  cases h : ((cyclicPairs l).countP (edgeCross point.x point.y) % 2 == 1) <;>
    simp [h]

theorem edgeCross_swap (x y : ℚ) (pr : Pt3 × Pt3) :
    edgeCross x y pr.swap = edgeCross x y pr := by
  obtain ⟨a, b⟩ := pr
  show edgeCross x y (b, a) = edgeCross x y (a, b)
  by_cases halt : (decide (b.y > y) != decide (a.y > y)) = true
  · have halt' : (decide (a.y > y) != decide (b.y > y)) = true := by
      cases hb : decide (b.y > y) <;> cases ha : decide (a.y > y) <;>
        simp [hb, ha] at halt ⊢
    have h1 : a.y - b.y ≠ 0 := alt_denom_ne halt
    have h2 : b.y - a.y ≠ 0 := alt_denom_ne halt'
    have heq : (b.x - a.x) * (y - a.y) / denomGuard (b.y - a.y) + a.x =
        (a.x - b.x) * (y - b.y) / denomGuard (a.y - b.y) + b.x := by
      rw [denomGuard, if_neg h2, denomGuard, if_neg h1]
      field_simp
      ring
    unfold edgeCross
    simp only [halt, halt', Bool.true_bne, Bool.true_and]
    rw [heq]
  · have halt' : ¬ ((decide (a.y > y) != decide (b.y > y)) = true) := by
      cases hb : decide (b.y > y) <;> cases ha : decide (a.y > y) <;>
        simp [hb, ha] at halt ⊢
    unfold edgeCross
    simp only [Bool.not_eq_true] at halt halt'
    simp [halt, halt']

theorem cyclicPairs_reverse (l : List Pt3) :
    cyclicPairs l.reverse = ((edgePairs l).map Prod.swap).reverse := by
  match l with
  | [] => rfl
  | [a] => simp [cyclicPairs, edgePairs, List.rotate_singleton]
  | a :: b :: t =>
    have hmod : 1 % (a :: b :: t).length = 1 :=
      Nat.mod_eq_of_lt (by simp)
    have hzip : ((a :: b :: t).zip
        ((a :: b :: t).rotate ((a :: b :: t).length - 1))).reverse =
        (a :: b :: t).reverse.zip
          (((a :: b :: t).rotate ((a :: b :: t).length - 1)).reverse) :=
      List.reverse_zipWith (by simp)
    have hswap : (a :: b :: t).zip
        ((a :: b :: t).rotate ((a :: b :: t).length - 1)) =
        (((a :: b :: t).rotate ((a :: b :: t).length - 1)).zip
          (a :: b :: t)).map Prod.swap := by
      rw [List.zip_swap]
    unfold cyclicPairs edgePairs
    rw [List.rotate_reverse, hmod, ← hzip, hswap]

theorem countP_cyclicPairs_reverse (x y : ℚ) (l : List Pt3) :
    (cyclicPairs l.reverse).countP (edgeCross x y) =
      (cyclicPairs l).countP (edgeCross x y) := by
  rw [cyclicPairs_reverse]
  rw [(List.reverse_perm _).countP_eq]
  rw [List.countP_map]
  have hfun : ((edgeCross x y) ∘ Prod.swap) = edgeCross x y :=
    funext (fun pr => edgeCross_swap x y pr)
  rw [hfun]
  exact countP_edgePairs_eq _ l

/-- C6: the containment test depends only on the closed loop: it is
invariant under rotation of the vertex list (any start index) and under
reversal of the vertex order. -/
theorem inside_rotation_reversal_invariant :
    (∀ (point : Pt3) (polygon : List Pt3) (k : ℕ),
      is_point_inside_polygon point (polygon.rotate k) =
        is_point_inside_polygon point polygon) ∧
    (∀ (point : Pt3) (polygon : List Pt3),
      is_point_inside_polygon point polygon.reverse =
        is_point_inside_polygon point polygon) := by
  constructor
  · intro point polygon k
    rw [inside_eq_parity, inside_eq_parity, cyclicPairs_rotate,
      (List.rotate_perm _ _).countP_eq]
  · intro point polygon
    rw [inside_eq_parity, inside_eq_parity, countP_cyclicPairs_reverse]

end BIM3DNA

namespace BIM3DNA

/-! ### Containment vs convex hull (C7): algebraic lemmas -/

theorem edgeCross_eq_crossX (x y : ℚ) (pr : Pt3 × Pt3) :
    edgeCross x y pr =
      ((decide (pr.2.y > y) != decide (pr.1.y > y)) &&
        decide (x < crossX y pr)) := rfl

theorem cross2_identity (x y : ℚ) (u w : Pt3) :
    cross2 (pxy u) (pxy w) (x, y) =
      (x - w.x) * (u.y - w.y) - (u.x - w.x) * (y - w.y) := by
  unfold cross2 pxy
  ring

theorem cross2_antisym (o a b : ℚ × ℚ) : cross2 a o b = -cross2 o a b := by
  unfold cross2; ring

theorem cross2_affine (o a p q : ℚ × ℚ) (s t : ℚ) (hst : s + t = 1) :
    cross2 o a (s • p + t • q) = s * cross2 o a p + t * cross2 o a q := by
  have hs : s = 1 - t := by linarith
  subst hs
  unfold cross2
  simp only [Prod.smul_fst, Prod.smul_snd, Prod.fst_add, Prod.snd_add,
    smul_eq_mul]
  ring

theorem collinear_trans (u w a b c : ℚ × ℚ) (huw : u ≠ w)
    (ha : cross2 u w a = 0) (hb : cross2 u w b = 0)
    (hc : cross2 u w c = 0) : cross2 a b c = 0 := by
  by_cases h1 : w.1 - u.1 = 0
  · by_cases h2 : w.2 - u.2 = 0
    · exact absurd (Prod.ext (by linarith) (by linarith)) (Ne.symm huw)
    · have key : cross2 a b c * (w.2 - u.2) =
          (c.2 - b.2) * cross2 u w a + (a.2 - c.2) * cross2 u w b +
            (b.2 - a.2) * cross2 u w c := by
        unfold cross2; ring
      rw [ha, hb, hc] at key
      simp only [mul_zero, add_zero] at key
      rcases mul_eq_zero.mp key with h | h
      · exact h
      · exact absurd h h2
  · have key : cross2 a b c * (w.1 - u.1) =
        (c.1 - b.1) * cross2 u w a + (a.1 - c.1) * cross2 u w b +
          (b.1 - a.1) * cross2 u w c := by
      unfold cross2; ring
    rw [ha, hb, hc] at key
    simp only [mul_zero, add_zero] at key
    rcases mul_eq_zero.mp key with h | h
    · exact h
    · exact absurd h h1

theorem lt_crossX_iff_up (x y : ℚ) (u w : Pt3) (hy : u.y < w.y) :
    x < crossX y (u, w) ↔ 0 < cross2 (pxy u) (pxy w) (x, y) := by
  have hd : u.y - w.y < 0 := by linarith
  have hne : u.y - w.y ≠ 0 := ne_of_lt hd
  show x < (u.x - w.x) * (y - w.y) / denomGuard (u.y - w.y) + w.x ↔ _
  rw [denomGuard, if_neg hne, cross2_identity, ← sub_lt_iff_lt_add,
    lt_div_iff_of_neg hd]
  constructor <;> intro h <;> linarith

theorem le_crossX_iff_up (x y : ℚ) (u w : Pt3) (hy : u.y < w.y) :
    x ≤ crossX y (u, w) ↔ 0 ≤ cross2 (pxy u) (pxy w) (x, y) := by
  have hd : u.y - w.y < 0 := by linarith
  have hne : u.y - w.y ≠ 0 := ne_of_lt hd
  show x ≤ (u.x - w.x) * (y - w.y) / denomGuard (u.y - w.y) + w.x ↔ _
  rw [denomGuard, if_neg hne, cross2_identity, ← sub_le_iff_le_add,
    le_div_iff_of_neg hd]
  constructor <;> intro h <;> linarith

theorem lt_crossX_iff_down (x y : ℚ) (u w : Pt3) (hy : w.y < u.y) :
    x < crossX y (u, w) ↔ cross2 (pxy u) (pxy w) (x, y) < 0 := by
  have hd : 0 < u.y - w.y := by linarith
  have hne : u.y - w.y ≠ 0 := ne_of_gt hd
  show x < (u.x - w.x) * (y - w.y) / denomGuard (u.y - w.y) + w.x ↔ _
  rw [denomGuard, if_neg hne, cross2_identity, ← sub_lt_iff_lt_add,
    lt_div_iff₀ hd]
  constructor <;> intro h <;> linarith

theorem crossing_point_mem_segment (y : ℚ) (pr : Pt3 × Pt3)
    (halt : (decide (pr.2.y > y) != decide (pr.1.y > y)) = true) :
    ((crossX y pr, y) : ℚ × ℚ) ∈ segment ℚ (pxy pr.2) (pxy pr.1) := by
  obtain ⟨j, i⟩ := pr
  have hne : j.y - i.y ≠ 0 := alt_denom_ne halt
  set t : ℚ := (y - i.y) / (j.y - i.y) with ht
  have hco : (1 : ℚ) - t = (j.y - y) / (j.y - i.y) := by
    rw [ht]
    field_simp
  have hnegneg : ∀ a b : ℚ, a ≤ 0 → b < 0 → 0 ≤ a / b := by
    intro a b haa hbb
    rw [show a = -(-a) by ring, show b = -(-b) by ring, neg_div_neg_eq]
    exact div_nonneg (by linarith) (by linarith)
  have h0t : 0 ≤ t ∧ 0 ≤ 1 - t := by
    by_cases hi : i.y > y <;> by_cases hj : j.y > y
    · simp [hi, hj] at halt
    · constructor
      · rw [ht]
        exact hnegneg _ _ (by linarith) (by linarith)
      · rw [hco]
        exact hnegneg _ _ (by linarith) (by linarith)
    · constructor
      · rw [ht]
        exact div_nonneg (by linarith) (by linarith)
      · rw [hco]
        exact div_nonneg (by linarith) (by linarith)
    · simp [hi, hj] at halt
  refine ⟨1 - t, t, h0t.2, h0t.1, by ring, ?_⟩
  have hxeq : (1 - t) * i.x + t * j.x = crossX y (j, i) := by
    show _ = (j.x - i.x) * (y - i.y) / denomGuard (j.y - i.y) + i.x
    rw [denomGuard, if_neg hne, ht]
    field_simp
    ring
  have hyeq : (1 - t) * i.y + t * j.y = y := by
    rw [ht]
    field_simp
    ring
  show ((1 - t) • pxy i + t • pxy j) = (crossX y (j, i), y)
  unfold pxy
  rw [Prod.ext_iff]
  constructor
  · simpa using hxeq
  · simpa using hyeq

theorem between_mem_segment (x y X1 X2 : ℚ) (h1 : X1 ≤ x) (h2 : x < X2) :
    ((x, y) : ℚ × ℚ) ∈ segment ℚ (X1, y) (X2, y) := by
  have hlt : X1 < X2 := lt_of_le_of_lt h1 h2
  have hpos : 0 < X2 - X1 := by linarith
  set u : ℚ := (x - X1) / (X2 - X1) with hu
  refine ⟨1 - u, u, ?_, div_nonneg (by linarith) (by linarith), by ring, ?_⟩
  · rw [sub_nonneg, hu]
    exact (div_le_one hpos).mpr (by linarith)
  · rw [Prod.ext_iff]
    constructor
    · show (1 - u) * X1 + u * X2 = x
      rw [hu]
      field_simp
      ring
    · show (1 - u) * y + u * y = y
      ring

end BIM3DNA

namespace BIM3DNA

/-! ### C7: counting upward and downward crossings around the loop -/

theorem getLastD_congr (l : List Pt3) (h : l ≠ []) (d1 d2 : Pt3) :
    l.getLastD d1 = l.getLastD d2 := by
  cases l with
  | nil => exact absurd rfl h
  | cons a t =>
    induction t generalizing a with
    | nil => rfl
    | cons b t ih => exact ih b (by simp)

theorem zip_cyclic_split :
    ∀ (s : List Pt3) (a c : Pt3),
      (a :: s).zip (s ++ [c]) =
        ((a :: s).zip s) ++ [((a :: s).getLastD ⟨0, 0, 0⟩, c)] := by
  intro s
  induction s with
  | nil => intro a c; rfl
  | cons b t ih =>
    intro a c
    show (a, b) :: ((b :: t).zip (t ++ [c])) = _
    rw [ih b c]
    rfl

theorem path_transitions (y : ℚ) :
    ∀ (s : List Pt3) (a : Pt3),
      ((a :: s).zip s).countP (riseP y) +
          (if sGt y a = true then 1 else 0) =
        ((a :: s).zip s).countP (fallP y) +
          (if sGt y ((a :: s).getLastD ⟨0, 0, 0⟩) = true then 1 else 0) := by
  intro s
  induction s with
  | nil => intro a; rfl
  | cons b t ih =>
    intro a
    have ihb := ih b
    have hlast : (a :: b :: t).getLastD ⟨0, 0, 0⟩ =
        (b :: t).getLastD ⟨0, 0, 0⟩ := by
      show (b :: t).getLastD a = (b :: t).getLastD ⟨0, 0, 0⟩
      exact getLastD_congr _ (by simp) _ _
    rw [show (a :: b :: t).zip (b :: t) = (a, b) :: ((b :: t).zip t) from rfl,
      List.countP_cons, List.countP_cons, hlast]
    cases ha : sGt y a <;> cases hb : sGt y b <;>
      simp only [riseP, fallP, ha, hb, Bool.not_true, Bool.not_false,
        Bool.true_and, Bool.false_and, Bool.and_true, Bool.and_false,
        Bool.and_self] at ihb ⊢ <;>
      simp at ihb ⊢ <;> omega

theorem cyclic_rises_eq_falls (y : ℚ) (l : List Pt3) :
    (cyclicPairs l).countP (riseP y) = (cyclicPairs l).countP (fallP y) := by
  cases l with
  | nil => rfl
  | cons a s =>
    have hrot : (a :: s).rotate 1 = s ++ [a] := by
      rw [List.rotate_cons_succ, List.rotate_zero]
    unfold cyclicPairs
    rw [hrot, zip_cyclic_split s a a, List.countP_append, List.countP_append]
    have hpt := path_transitions y s a
    generalize hgl : (a :: s).getLastD ⟨0, 0, 0⟩ = lastv at hpt ⊢
    cases ha : sGt y a <;> cases hlv : sGt y lastv <;>
      simp [riseP, fallP, ha, hlv, List.countP_cons] at hpt ⊢ <;>
      omega

theorem countP_split (q r : Pt3 × Pt3 → Bool) (L : List (Pt3 × Pt3)) :
    L.countP q =
      L.countP (fun e => q e && r e) + L.countP (fun e => q e && !r e) := by
  induction L with
  | nil => rfl
  | cons a L ih =>
    simp only [List.countP_cons]
    cases hq : q a <;> cases hr : r a <;> simp [hq, hr] <;> omega

theorem countP_alt_eq (y : ℚ) (L : List (Pt3 × Pt3)) :
    L.countP (fun pr => sGt y pr.2 != sGt y pr.1) =
      L.countP (riseP y) + L.countP (fallP y) := by
  induction L with
  | nil => rfl
  | cons a L ih =>
    simp only [List.countP_cons]
    cases h1 : sGt y a.1 <;> cases h2 : sGt y a.2 <;>
      simp [riseP, fallP, h1, h2] <;> omega

theorem no_transition_all_eq (p : Pt3 → Bool) :
    ∀ (s : List Pt3) (a : Pt3),
      (∀ pr ∈ (a :: s).zip s, p pr.1 = p pr.2) → ∀ v ∈ a :: s, p v = p a := by
  intro s
  induction s with
  | nil =>
    intro a _ v hv
    simp only [List.mem_singleton] at hv
    rw [hv]
  | cons b t ih =>
    intro a hpairs v hv
    have hzip : (a :: b :: t).zip (b :: t) = (a, b) :: ((b :: t).zip t) := rfl
    have hab : p a = p b := by
      apply hpairs (a, b)
      rw [hzip]
      exact List.mem_cons_self _ _
    rcases List.mem_cons.mp hv with rfl | hv'
    · rfl
    · have hsub : ∀ pr ∈ (b :: t).zip t, p pr.1 = p pr.2 := by
        intro pr hpr
        apply hpairs pr
        rw [hzip]
        exact List.mem_cons_of_mem _ hpr
      rw [ih b hsub v hv', hab]

theorem exists_rise (y : ℚ) (l : List Pt3)
    (hT : ∃ v ∈ l, sGt y v = true) (hF : ∃ v ∈ l, sGt y v = false) :
    0 < (cyclicPairs l).countP (riseP y) := by
  cases l with
  | nil => obtain ⟨v, hv, _⟩ := hT; exact absurd hv (List.not_mem_nil v)
  | cons a s =>
    by_contra hcon
    push_neg at hcon
    have hr0 : (cyclicPairs (a :: s)).countP (riseP y) = 0 := by omega
    have hf0 : (cyclicPairs (a :: s)).countP (fallP y) = 0 := by
      rw [← cyclic_rises_eq_falls]; exact hr0
    have hnone : ∀ pr ∈ cyclicPairs (a :: s),
        sGt y pr.1 = sGt y pr.2 := by
      intro pr hpr
      have hnr := List.countP_eq_zero.mp hr0 pr hpr
      have hnf := List.countP_eq_zero.mp hf0 pr hpr
      cases h1 : sGt y pr.1 <;> cases h2 : sGt y pr.2 <;>
        simp [riseP, fallP, h1, h2] at hnr hnf ⊢
    have hpath : ∀ pr ∈ (a :: s).zip s, sGt y pr.1 = sGt y pr.2 := by
      intro pr hpr
      apply hnone
      have hrot : (a :: s).rotate 1 = s ++ [a] := by
        rw [List.rotate_cons_succ, List.rotate_zero]
      unfold cyclicPairs
      rw [hrot, zip_cyclic_split s a a]
      exact List.mem_append_left _ hpr
    have hall := no_transition_all_eq (sGt y) s a hpath
    obtain ⟨vT, hvT, hsT⟩ := hT
    obtain ⟨vF, hvF, hsF⟩ := hF
    have h1 := hall vT hvT
    have h2 := hall vF hvF
    rw [hsT] at h1
    rw [hsF] at h2
    rw [← h1] at h2
    exact absurd h2 (by simp)

end BIM3DNA

namespace BIM3DNA

/-! ### C7 part 1: points outside the convex hull are classified outside -/

theorem mem_cyclicPairs (l : List Pt3) (pr : Pt3 × Pt3)
    (h : pr ∈ cyclicPairs l) : pr.1 ∈ l ∧ pr.2 ∈ l := by
  obtain ⟨p1, p2⟩ := pr
  have hz := List.of_mem_zip h
  exact ⟨hz.1, ((List.rotate_perm l 1).mem_iff).mp hz.2⟩

theorem crossX_mem_hull (y : ℚ) (l : List Pt3) (pr : Pt3 × Pt3)
    (hpr : pr ∈ cyclicPairs l)
    (halt : (decide (pr.2.y > y) != decide (pr.1.y > y)) = true) :
    ((crossX y pr, y) : ℚ × ℚ) ∈ convexHull ℚ (vertexSet l) := by
  have hseg := crossing_point_mem_segment y pr halt
  have hmem := mem_cyclicPairs l pr hpr
  have h2 : pxy pr.2 ∈ convexHull ℚ (vertexSet l) :=
    subset_convexHull ℚ _ ⟨pr.2, hmem.2, rfl⟩
  have h1 : pxy pr.1 ∈ convexHull ℚ (vertexSet l) :=
    subset_convexHull ℚ _ ⟨pr.1, hmem.1, rfl⟩
  exact (convex_convexHull ℚ _).segment_subset h2 h1 hseg

theorem inside_outside_hull (point : Pt3) (polygon : List Pt3)
    (h : pxy point ∉ convexHull ℚ (vertexSet polygon)) :
    is_point_inside_polygon point polygon = false := by
  by_contra hcon
  have htrue : is_point_inside_polygon point polygon = true := by
    cases hin : is_point_inside_polygon point polygon
    · exact absurd hin hcon
    · rfl
  rw [inside_eq_parity] at htrue
  have hodd : (cyclicPairs polygon).countP
      (edgeCross point.x point.y) % 2 = 1 := by
    simpa using htrue
  have hfun : edgeCross point.x point.y =
      (fun pr : Pt3 × Pt3 => (sGt point.y pr.2 != sGt point.y pr.1) &&
        decide (point.x < crossX point.y pr)) :=
    funext fun pr => rfl
  rw [hfun] at hodd
  have hsplit := countP_split
    (fun pr : Pt3 × Pt3 => sGt point.y pr.2 != sGt point.y pr.1)
    (fun pr : Pt3 × Pt3 => decide (point.x < crossX point.y pr))
    (cyclicPairs polygon)
  have halt_eq := countP_alt_eq point.y (cyclicPairs polygon)
  have heq_rf := cyclic_rises_eq_falls point.y polygon
  have hnotx_odd : (cyclicPairs polygon).countP
      (fun pr : Pt3 × Pt3 => (sGt point.y pr.2 != sGt point.y pr.1) &&
        !decide (point.x < crossX point.y pr)) % 2 = 1 := by
    omega
  have hpos1 : 0 < (cyclicPairs polygon).countP
      (fun pr : Pt3 × Pt3 => (sGt point.y pr.2 != sGt point.y pr.1) &&
        !decide (point.x < crossX point.y pr)) := by
    omega
  have hpos2 : 0 < (cyclicPairs polygon).countP
      (fun pr : Pt3 × Pt3 => (sGt point.y pr.2 != sGt point.y pr.1) &&
        decide (point.x < crossX point.y pr)) := by
    omega
  obtain ⟨e1, he1, hp1⟩ := List.countP_pos_iff.mp hpos1
  obtain ⟨e2, he2, hp2⟩ := List.countP_pos_iff.mp hpos2
  simp only [Bool.and_eq_true, Bool.not_eq_true', decide_eq_false_iff_not,
    decide_eq_true_eq] at hp1 hp2
  have hX1 : ((crossX point.y e1, point.y) : ℚ × ℚ) ∈
      convexHull ℚ (vertexSet polygon) :=
    crossX_mem_hull point.y polygon e1 he1 hp1.1
  have hX2 : ((crossX point.y e2, point.y) : ℚ × ℚ) ∈
      convexHull ℚ (vertexSet polygon) :=
    crossX_mem_hull point.y polygon e2 he2 hp2.1
  have hq : ((point.x, point.y) : ℚ × ℚ) ∈
      segment ℚ (crossX point.y e1, point.y) (crossX point.y e2, point.y) :=
    between_mem_segment point.x point.y _ _ (not_lt.mp hp1.2) hp2.2
  have hmem : ((point.x, point.y) : ℚ × ℚ) ∈
      convexHull ℚ (vertexSet polygon) :=
    (convex_convexHull ℚ _).segment_subset hX1 hX2 hq
  exact h hmem

end BIM3DNA

namespace BIM3DNA

/-! ### C7 part 2: structural lemmas for convex polygons -/

theorem cyclicPairs_length (l : List Pt3) :
    (cyclicPairs l).length = l.length := by
  simp [cyclicPairs]

theorem cyclicPairs_fst_ne_snd (l : List Pt3) (hnd : l.Nodup)
    (hlen : 2 ≤ l.length) :
    ∀ pr ∈ cyclicPairs l, pr.1 ≠ pr.2 := by
  intro pr hpr heq
  obtain ⟨i, hi⟩ := List.get_of_mem hpr
  have hi' : (l.zip (l.rotate 1)).get i = pr := hi
  rw [List.get_eq_getElem, List.getElem_zip] at hi'
  have h1 : l.get ⟨i.val, List.lt_length_left_of_zip i.isLt⟩ = pr.1 :=
    congrArg Prod.fst hi'
  have h2 : (l.rotate 1).get ⟨i.val, List.lt_length_right_of_zip i.isLt⟩ =
      pr.2 := congrArg Prod.snd hi'
  rw [List.get_rotate] at h2
  rw [heq] at h1
  have hij := hnd.get_inj_iff.mp (h1.trans h2.symm)
  simp only [Fin.mk.injEq, Fin.val_mk] at hij
  have hilt : i.val < l.length := List.lt_length_left_of_zip i.isLt
  rcases Nat.lt_or_ge (i.val + 1) l.length with hlt | hge
  · rw [Nat.mod_eq_of_lt hlt] at hij
    omega
  · have heqn : i.val + 1 = l.length := by omega
    rw [← heqn, Nat.mod_self] at hij
    omega

theorem pxy_inj_of_nodup (l : List Pt3) (hnd : (l.map pxy).Nodup)
    {u v : Pt3} (hu : u ∈ l) (hv : v ∈ l) (hne : u ≠ v) :
    pxy u ≠ pxy v := by
  intro heq
  exact hne (List.inj_on_of_nodup_map hnd hu hv heq)

theorem cyclicPairs_nodup (l : List Pt3) (hnd : l.Nodup) :
    (cyclicPairs l).Nodup := by
  have hmap : (cyclicPairs l).map Prod.fst = l :=
    List.map_fst_zip _ _ (by simp)
  exact List.Nodup.of_map Prod.fst (by rw [hmap]; exact hnd)

theorem cyclicPairs_fst_inj (l : List Pt3) (hnd : l.Nodup)
    {a b : Pt3 × Pt3} (ha : a ∈ cyclicPairs l) (hb : b ∈ cyclicPairs l)
    (hne : a ≠ b) : a.1 ≠ b.1 := by
  have hmap : (cyclicPairs l).map Prod.fst = l :=
    List.map_fst_zip _ _ (by simp)
  have hnd' : ((cyclicPairs l).map Prod.fst).Nodup := by
    rw [hmap]; exact hnd
  intro heq
  exact hne (List.inj_on_of_nodup_map hnd' ha hb heq)

theorem two_mem_of_two_le_countP (L : List (Pt3 × Pt3))
    (p : Pt3 × Pt3 → Bool) (hnd : L.Nodup) (h2 : 2 ≤ L.countP p) :
    ∃ a ∈ L, ∃ b ∈ L, a ≠ b ∧ p a = true ∧ p b = true := by
  rw [List.countP_eq_length_filter] at h2
  rcases hf : L.filter p with _ | ⟨a, t⟩
  · rw [hf] at h2; simp at h2
  · rcases t with _ | ⟨b, t'⟩
    · rw [hf] at h2; simp at h2
    · have hfa : a ∈ L.filter p := by rw [hf]; exact List.mem_cons_self _ _
      have hfb : b ∈ L.filter p := by rw [hf]; simp
      have hnd' : (L.filter p).Nodup := hnd.filter p
      have hab : a ≠ b := by
        rw [hf] at hnd'
        intro heq
        subst heq
        exact (List.nodup_cons.mp hnd').1 (List.mem_cons_self a t')
      exact ⟨a, (List.mem_filter.mp hfa).1, b, (List.mem_filter.mp hfb).1,
        hab, (List.mem_filter.mp hfa).2, (List.mem_filter.mp hfb).2⟩

theorem list_sum_nonneg (L : List ℚ) (hall : ∀ x ∈ L, 0 ≤ x) :
    0 ≤ L.sum := by
  induction L with
  | nil => simp
  | cons a t ih =>
    simp only [List.sum_cons]
    have ha := hall a (List.mem_cons_self a t)
    have ht := ih (fun x hx => hall x (List.mem_cons_of_mem _ hx))
    linarith

theorem list_sum_pos (L : List ℚ) (hall : ∀ x ∈ L, 0 ≤ x)
    (hex : ∃ x ∈ L, 0 < x) : 0 < L.sum := by
  induction L with
  | nil => obtain ⟨x, hx, _⟩ := hex; exact absurd hx (List.not_mem_nil x)
  | cons a t ih =>
    simp only [List.sum_cons]
    have ha := hall a (List.mem_cons_self a t)
    have ht := list_sum_nonneg t (fun x hx => hall x (List.mem_cons_of_mem _ hx))
    obtain ⟨x, hx, hxpos⟩ := hex
    rcases List.mem_cons.mp hx with rfl | hx'
    · linarith
    · have := ih (fun z hz => hall z (List.mem_cons_of_mem _ hz)) ⟨x, hx', hxpos⟩
      linarith

theorem list_sum_le (L : List ℚ) (c : ℚ) (hall : ∀ x ∈ L, x ≤ c) :
    L.sum ≤ L.length * c := by
  induction L with
  | nil => simp
  | cons a t ih =>
    simp only [List.sum_cons, List.length_cons]
    have ha := hall a (List.mem_cons_self a t)
    have ht := ih (fun x hx => hall x (List.mem_cons_of_mem _ hx))
    push_cast
    nlinarith

theorem list_sum_lt (L : List ℚ) (c : ℚ) (hall : ∀ x ∈ L, x ≤ c)
    (hex : ∃ x ∈ L, x < c) : L.sum < L.length * c := by
  induction L with
  | nil => obtain ⟨x, hx, _⟩ := hex; exact absurd hx (List.not_mem_nil x)
  | cons a t ih =>
    simp only [List.sum_cons, List.length_cons]
    have ha := hall a (List.mem_cons_self a t)
    have ht := list_sum_le t c (fun x hx => hall x (List.mem_cons_of_mem _ hx))
    obtain ⟨x, hx, hxlt⟩ := hex
    push_cast
    rcases List.mem_cons.mp hx with rfl | hx'
    · nlinarith
    · have := ih (fun z hz => hall z (List.mem_cons_of_mem _ hz)) ⟨x, hx', hxlt⟩
      push_cast at this
      nlinarith

theorem list_sum_ge (L : List ℚ) (c : ℚ) (hall : ∀ x ∈ L, c ≤ x) :
    (L.length : ℚ) * c ≤ L.sum := by
  induction L with
  | nil => simp
  | cons a t ih =>
    simp only [List.sum_cons, List.length_cons]
    have ha := hall a (List.mem_cons_self a t)
    have ht := ih (fun x hx => hall x (List.mem_cons_of_mem _ hx))
    push_cast
    nlinarith

theorem list_sum_gt (L : List ℚ) (c : ℚ) (hall : ∀ x ∈ L, c ≤ x)
    (hex : ∃ x ∈ L, c < x) : (L.length : ℚ) * c < L.sum := by
  induction L with
  | nil => obtain ⟨x, hx, _⟩ := hex; exact absurd hx (List.not_mem_nil x)
  | cons a t ih =>
    simp only [List.sum_cons, List.length_cons]
    have ha := hall a (List.mem_cons_self a t)
    have ht := list_sum_ge t c (fun x hx => hall x (List.mem_cons_of_mem _ hx))
    obtain ⟨x, hx, hxgt⟩ := hex
    push_cast
    rcases List.mem_cons.mp hx with rfl | hx'
    · nlinarith
    · have := ih (fun z hz => hall z (List.mem_cons_of_mem _ hz)) ⟨x, hx', hxgt⟩
      push_cast at this
      nlinarith

theorem exists_gt_avg (L : List ℚ) (hne : L ≠ [])
    (hnc : ∃ a ∈ L, ∃ b ∈ L, a ≠ b) :
    ∃ a ∈ L, L.sum / L.length < a := by
  by_contra hcon
  push_neg at hcon
  have hnlen : (0 : ℚ) < L.length := by
    have hp : 0 < L.length := List.length_pos.mpr hne
    exact_mod_cast hp
  obtain ⟨a, ha, b, hb, hab⟩ := hnc
  have hlt : ∃ x ∈ L, x < L.sum / L.length := by
    rcases lt_or_gt_of_ne hab with h | h
    · exact ⟨a, ha, lt_of_lt_of_le h (hcon b hb)⟩
    · exact ⟨b, hb, lt_of_lt_of_le h (hcon a ha)⟩
  have := list_sum_lt L (L.sum / L.length) hcon hlt
  rw [mul_div_cancel₀ _ (ne_of_gt hnlen)] at this
  exact lt_irrefl _ this

theorem exists_lt_avg (L : List ℚ) (hne : L ≠ [])
    (hnc : ∃ a ∈ L, ∃ b ∈ L, a ≠ b) :
    ∃ a ∈ L, a < L.sum / L.length := by
  by_contra hcon
  push_neg at hcon
  have hnlen : (0 : ℚ) < L.length := by
    have hp : 0 < L.length := List.length_pos.mpr hne
    exact_mod_cast hp
  obtain ⟨a, ha, b, hb, hab⟩ := hnc
  have hgt : ∃ x ∈ L, L.sum / L.length < x := by
    rcases lt_or_gt_of_ne hab with h | h
    · exact ⟨b, hb, lt_of_le_of_lt (hcon a ha) h⟩
    · exact ⟨a, ha, lt_of_le_of_lt (hcon b hb) h⟩
  have := list_sum_gt L (L.sum / L.length) hcon hgt
  rw [mul_div_cancel₀ _ (ne_of_gt hnlen)] at this
  exact lt_irrefl _ this

end BIM3DNA

namespace BIM3DNA

/-! ### C7 part 2: at most one upward crossing for a convex polygon -/

theorem riseP_decode (y : ℚ) (pr : Pt3 × Pt3) (h : riseP y pr = true) :
    pr.1.y ≤ y ∧ y < pr.2.y := by
  simp only [riseP, Bool.and_eq_true, Bool.not_eq_true', sGt,
    decide_eq_false_iff_not, decide_eq_true_eq] at h
  exact ⟨not_lt.mp h.1, h.2⟩

theorem rise_combo (y : ℚ) (pr : Pt3 × Pt3) (h : riseP y pr = true) :
    ∃ t : ℚ, 0 < t ∧ t ≤ 1 ∧
      (1 - t) • pxy pr.2 + t • pxy pr.1 = ((crossX y pr, y) : ℚ × ℚ) := by
  obtain ⟨h1, h2⟩ := riseP_decode y pr h
  have hd : 0 < pr.2.y - pr.1.y := by linarith
  have hne : pr.2.y - pr.1.y ≠ 0 := ne_of_gt hd
  have hne2 : pr.1.y - pr.2.y ≠ 0 := by
    intro hc; apply hne; linarith
  refine ⟨(pr.2.y - y) / (pr.2.y - pr.1.y),
    div_pos (by linarith) hd, (div_le_one hd).mpr (by linarith), ?_⟩
  have hXeq : crossX y pr =
      (pr.1.x - pr.2.x) * (y - pr.2.y) / (pr.1.y - pr.2.y) + pr.2.x := by
    unfold crossX denomGuard
    rw [if_neg hne2]
  rw [hXeq]
  unfold pxy
  simp only [Prod.smul_mk, Prod.mk_add_mk, smul_eq_mul, Prod.mk.injEq]
  constructor
  · field_simp
    ring
  · field_simp
    ring

theorem rise_unique (y : ℚ) (l : List Pt3) (hnd : (l.map pxy).Nodup)
    (hcol : ∀ u ∈ l, ∀ v ∈ l, ∀ w ∈ l,
      pxy u ≠ pxy v → pxy v ≠ pxy w → pxy u ≠ pxy w →
        cross2 (pxy u) (pxy v) (pxy w) ≠ 0)
    (hleft : AllLeft l) :
    (cyclicPairs l).countP (riseP y) ≤ 1 := by
  by_contra hcon
  push_neg at hcon
  have hndl : l.Nodup := List.Nodup.of_map pxy hnd
  obtain ⟨e1, he1, e2, he2, hne, hr1, hr2⟩ :=
    two_mem_of_two_le_countP _ _ (cyclicPairs_nodup l hndl) hcon
  obtain ⟨h1a, h1b⟩ := riseP_decode y e1 hr1
  obtain ⟨h2a, h2b⟩ := riseP_decode y e2 hr2
  have hm1 := mem_cyclicPairs l e1 he1
  have hm2 := mem_cyclicPairs l e2 he2
  obtain ⟨t1, ht1pos, ht1le, hcomb1⟩ := rise_combo y e1 hr1
  have hy1 : e1.1.y < e1.2.y := lt_of_le_of_lt h1a h1b
  have hy2 : e2.1.y < e2.2.y := lt_of_le_of_lt h2a h2b
  have hP1left : 0 ≤ cross2 (pxy e2.1) (pxy e2.2) (crossX y e1, y) := by
    rw [← hcomb1, cross2_affine _ _ _ _ _ _ (by ring)]
    have hA := hleft e2 he2 e1.2 hm1.2
    have hB := hleft e2 he2 e1.1 hm1.1
    nlinarith
  obtain ⟨t2, ht2pos, ht2le, hcomb2⟩ := rise_combo y e2 hr2
  have hP2left : 0 ≤ cross2 (pxy e1.1) (pxy e1.2) (crossX y e2, y) := by
    rw [← hcomb2, cross2_affine _ _ _ _ _ _ (by ring)]
    have hA := hleft e1 he1 e2.2 hm2.2
    have hB := hleft e1 he1 e2.1 hm2.1
    nlinarith
  have hX12 : crossX y e1 ≤ crossX y e2 :=
    (le_crossX_iff_up (crossX y e1) y e2.1 e2.2 hy2).mpr hP1left
  have hX21 : crossX y e2 ≤ crossX y e1 :=
    (le_crossX_iff_up (crossX y e2) y e1.1 e1.2 hy1).mpr hP2left
  have hXeq : crossX y e1 = crossX y e2 := le_antisymm hX12 hX21
  have hself : cross2 (pxy e2.1) (pxy e2.2) (crossX y e2, y) = 0 := by
    have hge := (le_crossX_iff_up (crossX y e2) y e2.1 e2.2 hy2).mp le_rfl
    have hnpos : ¬ (0 < cross2 (pxy e2.1) (pxy e2.2) (crossX y e2, y)) := by
      rw [← lt_crossX_iff_up (crossX y e2) y e2.1 e2.2 hy2]
      exact lt_irrefl _
    have hle : cross2 (pxy e2.1) (pxy e2.2) (crossX y e2, y) ≤ 0 :=
      not_lt.mp hnpos
    linarith
  have hzero_comb : (1 - t1) * cross2 (pxy e2.1) (pxy e2.2) (pxy e1.2) +
      t1 * cross2 (pxy e2.1) (pxy e2.2) (pxy e1.1) = 0 := by
    rw [← cross2_affine _ _ _ _ _ _ (by ring : (1 - t1) + t1 = 1), hcomb1,
      hXeq, hself]
  have hA := hleft e2 he2 e1.2 hm1.2
  have hB := hleft e2 he2 e1.1 hm1.1
  have hu1zero : cross2 (pxy e2.1) (pxy e2.2) (pxy e1.1) = 0 := by
    nlinarith
  have hp_u2w2 : pxy e2.1 ≠ pxy e2.2 := by
    intro hc
    exact absurd (congrArg Prod.snd hc) (ne_of_lt hy2)
  have hp_w2u1 : pxy e2.2 ≠ pxy e1.1 := by
    intro hc
    have hyy : e2.2.y = e1.1.y := congrArg Prod.snd hc
    linarith
  have hp_u2u1 : pxy e2.1 ≠ pxy e1.1 :=
    pxy_inj_of_nodup l hnd hm2.1 hm1.1
      (cyclicPairs_fst_inj l hndl he2 he1 (Ne.symm hne))
  exact hcol e2.1 hm2.1 e2.2 hm2.2 e1.1 hm1.1 hp_u2w2 hp_w2u1 hp_u2u1 hu1zero

theorem countP_cross_eq_rise (q : Pt3) (l : List Pt3)
    (hstrict : ∀ pr ∈ cyclicPairs l,
      0 < cross2 (pxy pr.1) (pxy pr.2) (pxy q)) :
    (cyclicPairs l).countP (edgeCross q.x q.y) =
      (cyclicPairs l).countP (riseP q.y) := by
  apply List.countP_congr
  intro pr hpr
  have hs := hstrict pr hpr
  have hsx : 0 < cross2 (pxy pr.1) (pxy pr.2) (q.x, q.y) := hs
  rw [edgeCross_eq_crossX]
  by_cases h1 : pr.1.y > q.y <;> by_cases h2 : pr.2.y > q.y
  · simp [riseP, sGt, h1, h2]
  · have hxlt : ¬ (q.x < crossX q.y pr) := by
      rw [lt_crossX_iff_down q.x q.y pr.1 pr.2 (by linarith [not_lt.mp h2])]
      linarith
    simp [riseP, sGt, h1, h2, hxlt]
  · have hxlt : q.x < crossX q.y pr :=
      (lt_crossX_iff_up q.x q.y pr.1 pr.2
        (by linarith [not_lt.mp h1])).mpr hsx
    simp [riseP, sGt, h1, h2, hxlt]
  · simp [riseP, sGt, h1, h2]

end BIM3DNA

namespace BIM3DNA

/-! ### C7 part 2: the vertex centroid of a convex polygon is inside -/

theorem nodup_map_three (v1 v2 v3 : Pt3) (rest : List Pt3)
    (hnd : ((v1 :: v2 :: v3 :: rest).map pxy).Nodup) :
    pxy v1 ≠ pxy v2 ∧ pxy v2 ≠ pxy v3 ∧ pxy v1 ≠ pxy v3 := by
  simp only [List.map_cons, List.nodup_cons, List.mem_cons, List.mem_map,
    not_or] at hnd
  exact ⟨hnd.1.1, hnd.2.1.1, hnd.1.2.1⟩

theorem sum_cross2_eq (o a : ℚ × ℚ) (l : List Pt3) :
    (l.map (fun v => cross2 o a (pxy v))).sum =
      (a.1 - o.1) * (((l.map pxy).map Prod.snd).sum - l.length * o.2) -
        (a.2 - o.2) * (((l.map pxy).map Prod.fst).sum - l.length * o.1) := by
  induction l with
  | nil => simp
  | cons v t ih =>
    simp only [List.map_cons, List.sum_cons, List.length_cons, ih]
    unfold cross2 pxy
    push_cast
    ring

theorem cross2_centroid (o a : ℚ × ℚ) (l : List Pt3) (hne : l ≠ []) :
    (l.length : ℚ) * cross2 o a (pxy (centroidPt l)) =
      (l.map (fun v => cross2 o a (pxy v))).sum := by
  have hn : (l.length : ℚ) ≠ 0 := by
    have hp : 0 < l.length := List.length_pos.mpr hne
    exact_mod_cast Nat.pos_iff_ne_zero.mp hp
  rw [sum_cross2_eq]
  show (l.length : ℚ) * cross2 o a
      (((l.map pxy).map Prod.fst).sum / l.length,
        ((l.map pxy).map Prod.snd).sum / l.length) = _
  unfold cross2
  field_simp

theorem centroid_strict_left (l : List Pt3) (h3 : 3 ≤ l.length)
    (hnd : (l.map pxy).Nodup)
    (hcol : ∀ u ∈ l, ∀ v ∈ l, ∀ w ∈ l,
      pxy u ≠ pxy v → pxy v ≠ pxy w → pxy u ≠ pxy w →
        cross2 (pxy u) (pxy v) (pxy w) ≠ 0)
    (hleft : AllLeft l) :
    ∀ pr ∈ cyclicPairs l,
      0 < cross2 (pxy pr.1) (pxy pr.2) (pxy (centroidPt l)) := by
  intro pr hpr
  have hne : l ≠ [] := by
    intro hc; rw [hc] at h3; simp at h3
  have hmem := mem_cyclicPairs l pr hpr
  have hall : ∀ x ∈ l.map (fun v => cross2 (pxy pr.1) (pxy pr.2) (pxy v)),
      0 ≤ x := by
    intro x hx
    obtain ⟨v, hv, rfl⟩ := List.mem_map.mp hx
    exact hleft pr hpr v hv
  have hndl : l.Nodup := List.Nodup.of_map pxy hnd
  have hfstne : pr.1 ≠ pr.2 :=
    cyclicPairs_fst_ne_snd l hndl (by omega) pr hpr
  have hpne : pxy pr.1 ≠ pxy pr.2 :=
    pxy_inj_of_nodup l hnd hmem.1 hmem.2 hfstne
  have hex : ∃ x ∈ l.map (fun v => cross2 (pxy pr.1) (pxy pr.2) (pxy v)),
      0 < x := by
    by_contra hc
    push_neg at hc
    have hzero : ∀ v ∈ l, cross2 (pxy pr.1) (pxy pr.2) (pxy v) = 0 := by
      intro v hv
      have h1 := hall _ (List.mem_map.mpr ⟨v, hv, rfl⟩)
      have h2 := hc _ (List.mem_map.mpr ⟨v, hv, rfl⟩)
      linarith
    rcases l with _ | ⟨v1, _ | ⟨v2, _ | ⟨v3, rest⟩⟩⟩
    · simp at h3
    · simp at h3
    · simp at h3
    · have hm1 : v1 ∈ v1 :: v2 :: v3 :: rest := by simp
      have hm2 : v2 ∈ v1 :: v2 :: v3 :: rest := by simp
      have hm3 : v3 ∈ v1 :: v2 :: v3 :: rest := by simp
      obtain ⟨h12, h23, h13⟩ := nodup_map_three v1 v2 v3 rest hnd
      have hcoll := collinear_trans (pxy pr.1) (pxy pr.2)
        (pxy v1) (pxy v2) (pxy v3) hpne
        (hzero v1 hm1) (hzero v2 hm2) (hzero v3 hm3)
      exact hcol v1 hm1 v2 hm2 v3 hm3 h12 h23 h13 hcoll
  have hsum := list_sum_pos _ hall hex
  have hc2 := cross2_centroid (pxy pr.1) (pxy pr.2) l hne
  by_contra hle
  push_neg at hle
  have hnpos : (0 : ℚ) < l.length := by
    have hp : 0 < l.length := List.length_pos.mpr hne
    exact_mod_cast hp
  nlinarith

theorem inside_of_strict_left (q : Pt3) (l : List Pt3)
    (hnd : (l.map pxy).Nodup) (_h3 : 3 ≤ l.length)
    (hcol : ∀ u ∈ l, ∀ v ∈ l, ∀ w ∈ l,
      pxy u ≠ pxy v → pxy v ≠ pxy w → pxy u ≠ pxy w →
        cross2 (pxy u) (pxy v) (pxy w) ≠ 0)
    (hleft : AllLeft l)
    (habove : ∃ v ∈ l, q.y < v.y) (hbelow : ∃ v ∈ l, ¬ (q.y < v.y))
    (hstrict : ∀ pr ∈ cyclicPairs l,
      0 < cross2 (pxy pr.1) (pxy pr.2) (pxy q)) :
    is_point_inside_polygon q l = true := by
  rw [inside_eq_parity, countP_cross_eq_rise q l hstrict]
  have hge1 : 0 < (cyclicPairs l).countP (riseP q.y) := by
    apply exists_rise q.y l
    · obtain ⟨v, hv, hvy⟩ := habove
      exact ⟨v, hv, by simp [sGt, hvy]⟩
    · obtain ⟨v, hv, hvy⟩ := hbelow
      exact ⟨v, hv, by simp [sGt, hvy]⟩
  have hle1 := rise_unique q.y l hnd hcol hleft
  have heq1 : (cyclicPairs l).countP (riseP q.y) = 1 := by omega
  rw [heq1]
  rfl

theorem allLeft_reverse_of_allRight (l : List Pt3) (hright : AllRight l) :
    AllLeft l.reverse := by
  intro pr hpr v hv
  rw [cyclicPairs_reverse, List.mem_reverse] at hpr
  obtain ⟨pr', hpr', rfl⟩ := List.mem_map.mp hpr
  have hpr'' : pr' ∈ cyclicPairs l := by
    rw [edgePairs_eq_rotate] at hpr'
    exact ((List.rotate_perm _ _).mem_iff).mp hpr'
  have hv' : v ∈ l := List.mem_reverse.mp hv
  have hr := hright pr' hpr'' v hv'
  show 0 ≤ cross2 (pxy pr'.2) (pxy pr'.1) (pxy v)
  rw [cross2_antisym]
  linarith

theorem centroidPt_reverse (l : List Pt3) :
    centroidPt l.reverse = centroidPt l := by
  unfold centroidPt
  rw [List.map_reverse, List.map_reverse, List.map_reverse,
    List.sum_reverse, List.sum_reverse, List.length_reverse]

theorem centroid_above_below (l : List Pt3) (h3 : 3 ≤ l.length)
    (hnd : (l.map pxy).Nodup)
    (hcol : ∀ u ∈ l, ∀ v ∈ l, ∀ w ∈ l,
      pxy u ≠ pxy v → pxy v ≠ pxy w → pxy u ≠ pxy w →
        cross2 (pxy u) (pxy v) (pxy w) ≠ 0) :
    (∃ v ∈ l, (centroidPt l).y < v.y) ∧
      (∃ v ∈ l, ¬ ((centroidPt l).y < v.y)) := by
  have hylen : ((l.map pxy).map Prod.snd).length = l.length := by simp
  have hyne : (l.map pxy).map Prod.snd ≠ [] := by
    intro hc
    rw [hc] at hylen
    simp at hylen
    omega
  have hnc : ∃ a ∈ (l.map pxy).map Prod.snd,
      ∃ b ∈ (l.map pxy).map Prod.snd, a ≠ b := by
    by_contra hcon
    push_neg at hcon
    rcases l with _ | ⟨v1, _ | ⟨v2, _ | ⟨v3, rest⟩⟩⟩
    · simp at h3
    · simp at h3
    · simp at h3
    · have hm1 : v1.y ∈ ((v1 :: v2 :: v3 :: rest).map pxy).map Prod.snd := by
        simp [pxy]
      have hm2 : v2.y ∈ ((v1 :: v2 :: v3 :: rest).map pxy).map Prod.snd := by
        simp [pxy]
      have hm3 : v3.y ∈ ((v1 :: v2 :: v3 :: rest).map pxy).map Prod.snd := by
        simp [pxy]
      have h12 := hcon v1.y hm1 v2.y hm2
      have h13 := hcon v1.y hm1 v3.y hm3
      obtain ⟨hp12, hp23, hp13⟩ := nodup_map_three v1 v2 v3 rest hnd
      have hm1' : v1 ∈ v1 :: v2 :: v3 :: rest := by simp
      have hm2' : v2 ∈ v1 :: v2 :: v3 :: rest := by simp
      have hm3' : v3 ∈ v1 :: v2 :: v3 :: rest := by simp
      apply hcol v1 hm1' v2 hm2' v3 hm3' hp12 hp23 hp13
      unfold cross2 pxy
      rw [← h12, ← h13]
      ring
  obtain ⟨ya, hya, hgt⟩ :=
    exists_gt_avg ((l.map pxy).map Prod.snd) hyne hnc
  obtain ⟨yb, hyb, hlt⟩ :=
    exists_lt_avg ((l.map pxy).map Prod.snd) hyne hnc
  have hcy : (centroidPt l).y =
      ((l.map pxy).map Prod.snd).sum / ((l.map pxy).map Prod.snd).length := by
    rw [hylen]
    rfl
  constructor
  · obtain ⟨p, hp, rfl⟩ := List.mem_map.mp hya
    obtain ⟨v, hv, rfl⟩ := List.mem_map.mp hp
    exact ⟨v, hv, by rw [hcy]; exact hgt⟩
  · obtain ⟨p, hp, rfl⟩ := List.mem_map.mp hyb
    obtain ⟨v, hv, rfl⟩ := List.mem_map.mp hp
    exact ⟨v, hv, by rw [hcy]; exact not_lt.mpr (le_of_lt hlt)⟩

theorem centroid_inside_allLeft (l : List Pt3) (h3 : 3 ≤ l.length)
    (hnd : (l.map pxy).Nodup)
    (hcol : ∀ u ∈ l, ∀ v ∈ l, ∀ w ∈ l,
      pxy u ≠ pxy v → pxy v ≠ pxy w → pxy u ≠ pxy w →
        cross2 (pxy u) (pxy v) (pxy w) ≠ 0)
    (hleft : AllLeft l) :
    is_point_inside_polygon (centroidPt l) l = true := by
  obtain ⟨hab, hbe⟩ := centroid_above_below l h3 hnd hcol
  exact inside_of_strict_left (centroidPt l) l hnd h3 hcol hleft hab hbe
    (centroid_strict_left l h3 hnd hcol hleft)

theorem centroid_inside_of_convex (l : List Pt3) (hconv : ConvexPolygon l) :
    is_point_inside_polygon (centroidPt l) l = true := by
  obtain ⟨h3, hnd, hcol, hdir⟩ := hconv
  rcases hdir with hleft | hright
  · exact centroid_inside_allLeft l h3 hnd hcol hleft
  · have h3' : 3 ≤ l.reverse.length := by simpa using h3
    have hnd' : (l.reverse.map pxy).Nodup := by
      rw [List.map_reverse]
      exact List.nodup_reverse.mpr hnd
    have hcol' : ∀ u ∈ l.reverse, ∀ v ∈ l.reverse, ∀ w ∈ l.reverse,
        pxy u ≠ pxy v → pxy v ≠ pxy w → pxy u ≠ pxy w →
          cross2 (pxy u) (pxy v) (pxy w) ≠ 0 := by
      intro u hu v hv w hw
      exact hcol u (List.mem_reverse.mp hu) v (List.mem_reverse.mp hv)
        w (List.mem_reverse.mp hw)
    have hleft' : AllLeft l.reverse := allLeft_reverse_of_allRight l hright
    have hinv : is_point_inside_polygon (centroidPt l) l =
        is_point_inside_polygon (centroidPt l) l.reverse := by
      rw [inside_eq_parity, inside_eq_parity, countP_cyclicPairs_reverse]
    rw [hinv, ← centroidPt_reverse l]
    exact centroid_inside_allLeft l.reverse h3' hnd' hcol' hleft'

end BIM3DNA

namespace BIM3DNA

/-- C7: a query point whose planar projection lies strictly outside the
convex hull of the polygon's vertices is classified outside; for every
(strictly) convex polygon, the polygon's own vertex centroid is
classified inside; and the spec's example square, assembled from its four
edge segments, contains (0.5, 0.5) and not (2, 2). -/
theorem hull_centroid_containment :
    (∀ (point : Pt3) (polygon : List Pt3),
      pxy point ∉ convexHull ℚ (vertexSet polygon) →
        is_point_inside_polygon point polygon = false) ∧
    (∀ polygon : List Pt3, ConvexPolygon polygon →
      is_point_inside_polygon (centroidPt polygon) polygon = true) ∧
    (order_segments_to_polygon squareSegs = some squarePoly ∧
      is_point_inside_polygon ⟨1/2, 1/2, 0⟩ squarePoly = true ∧
      is_point_inside_polygon ⟨2, 2, 0⟩ squarePoly = false) := by
  refine ⟨fun point polygon h => inside_outside_hull point polygon h,
    fun polygon h => centroid_inside_of_convex polygon h, ?_, ?_, ?_⟩
  · norm_num [order_segments_to_polygon, order_chain, findAndRemove,
      points_are_close, squareSegs, squarePoly]
  · norm_num [is_point_inside_polygon, edgePairs, edgeCross, denomGuard,
      squarePoly, List.rotate]
  · norm_num [is_point_inside_polygon, edgePairs, edgeCross, denomGuard,
      squarePoly, List.rotate]

theorem squarePoly_convex : ConvexPolygon squarePoly := by
  refine ⟨by norm_num [squarePoly], ?_, ?_, Or.inl ?_⟩
  · simp only [squarePoly, pxy, List.map_cons, List.map_nil]
    norm_num [List.nodup_cons, Prod.ext_iff]
  · intro u hu v hv w hw
    simp only [squarePoly, List.mem_cons, List.not_mem_nil, or_false] at hu hv hw
    rcases hu with rfl | rfl | rfl | rfl <;>
      rcases hv with rfl | rfl | rfl | rfl <;>
      rcases hw with rfl | rfl | rfl | rfl <;>
      · intro h1 h2 h3
        revert h1 h2 h3
        norm_num [cross2, pxy, Prod.ext_iff]
  · intro pr hpr v hv
    simp only [cyclicPairs, squarePoly, List.rotate, List.zip, List.zipWith,
      List.mem_cons, List.not_mem_nil, or_false] at hpr hv
    rcases hpr with rfl | rfl | rfl | rfl <;>
      rcases hv with rfl | rfl | rfl | rfl <;>
      norm_num [cross2, pxy]

theorem hull_centroid_containment_witness :
    (pxy ⟨2, 2, 0⟩ ∉ convexHull ℚ (vertexSet squarePoly) ∧
      is_point_inside_polygon ⟨2, 2, 0⟩ squarePoly = false) ∧
    (ConvexPolygon squarePoly ∧
      is_point_inside_polygon (centroidPt squarePoly) squarePoly = true) := by
  have hhalf : Convex ℚ {p : ℚ × ℚ | p.1 ≤ 1} :=
    convex_halfSpace_le (⟨fun _ _ => rfl, fun _ _ => rfl⟩ :
      IsLinearMap ℚ (Prod.fst : ℚ × ℚ → ℚ)) 1
  have hsub : vertexSet squarePoly ⊆ {p : ℚ × ℚ | p.1 ≤ 1} := by
    rintro p ⟨v, hv, rfl⟩
    simp only [squarePoly, List.mem_cons, List.not_mem_nil, or_false] at hv
    rcases hv with rfl | rfl | rfl | rfl <;> norm_num [pxy]
  have hout : pxy ⟨2, 2, 0⟩ ∉ convexHull ℚ (vertexSet squarePoly) := by
    intro hin
    have := convexHull_min hsub hhalf hin
    norm_num [pxy] at this
  exact ⟨⟨hout, hull_centroid_containment.1 _ _ hout⟩,
    ⟨squarePoly_convex, hull_centroid_containment.2.1 _ squarePoly_convex⟩⟩

end BIM3DNA
